import Mathlib

/-!
Static Huffman compressor (`pro3.c`): embedding and verification

The C program counts byte frequencies, builds a Huffman tree through an
array-backed queue, derives a code table and packs the input into bytes.
This file translates these functions into Lean and proves properties of them.

Conventions of the embedding.

* `char` is a signed 8-bit type, `unsigned` is 32 bits wide, `int` is 32 bits.
  Values of C integer types are `Int`/`Nat`; conversions are written out
  (`toChar`, `toUChar`, `toUnsigned`, `wrapInt`).
* A `struct MinHeapNode*` is a value of `MinHeapNode`: either `null` or a node
  with its four fields.
* `struct MinHeap` keeps its three fields; `array` is the list of its
  `capacity` slots, slots never written hold `null`.
* Behaviour the C standard leaves undefined (reading outside the allocated
  array, `extractMin` on an empty queue, a write outside a character buffer) is
  the result `Fault.undefined`. Loops whose number of iterations is not a
  structural argument take a fuel; running out of fuel is `Fault.fuel`, and the
  theorems show that it does not happen.
* The character buffers `code[MAX_TREE_HT]` and `codes[256][MAX_TREE_HT]` hold
  `MAX_TREE_HT` = 100 characters each. `generateCodes` writes to them without a
  bound check: a write at index `MAX_TREE_HT` or beyond is `Fault.undefined`.
  Inside the bound a buffer is the list of the characters it holds, and a row
  of the table is the string before its terminator.
* A file is the list of its bytes; the calls to `fopen` succeed.
-/

namespace Pro3

/-! ## Machine integers -/

/-- Depth of the code buffers, `#define MAX_TREE_HT 100`. -/
def MAX_TREE_HT : Nat := 100

/-- End-of-file marker of `stdio.h`. -/
def EOF : Int := -1

/-- Conversion of an `int` to (signed, 8-bit) `char`. -/
def toChar (v : Int) : Int := (v + 128) % 256 - 128

/-- Conversion `(unsigned char)c` of a `char` or `int`. -/
def toUChar (v : Int) : Nat := (v % 256).toNat

/-- Conversion of an `int` to `unsigned` (32 bits). -/
def toUnsigned (v : Int) : Nat := (v % 4294967296).toNat

/-- Two's-complement wrap of an `int` result into the 32-bit range. -/
def wrapInt (v : Int) : Int := (v + 2147483648) % 4294967296 - 2147483648

/-- Byte of a file. -/
abbrev Byte := Fin 256

/-! ## Data model -/

/-- Value of type `struct MinHeapNode*`: `null`, or a node with the fields
`data`, `freq`, `left`, `right`. -/
inductive MinHeapNode where
  | null : MinHeapNode
  | mk (data : Int) (freq : Nat) (left right : MinHeapNode) : MinHeapNode
  deriving DecidableEq, Repr, Inhabited

namespace MinHeapNode

/-- Field read `p->freq` (the program never reads it through `NULL`). -/
def freq : MinHeapNode → Nat
  | null => 0
  | mk _ f _ _ => f

/-- Field read `p->data`. -/
def data : MinHeapNode → Int
  | null => 0
  | mk d _ _ _ => d

/-- Field read `p->left`. -/
def left : MinHeapNode → MinHeapNode
  | null => null
  | mk _ _ l _ => l

/-- Field read `p->right`. -/
def right : MinHeapNode → MinHeapNode
  | null => null
  | mk _ _ _ r => r

end MinHeapNode

/-- The record `struct MinHeap`. -/
structure MinHeap where
  size : Nat
  capacity : Nat
  array : List MinHeapNode
  deriving DecidableEq, Repr

/-- Outcome of a run that yields no value. -/
inductive Fault where
  | undefined : Fault
  | fuel : Fault
  deriving DecidableEq, Repr

deriving instance DecidableEq for Except

/-- Frequency table `int freq[256]`, indexed by byte value. -/
abbrev FreqTable := Nat → Int

/-- Code table `char codes[256][MAX_TREE_HT]`: the string stored in each row. -/
abbrev CodeTable := Nat → List Char

/-! ## Queue operations -/

/-- The call `newNode(data, freq)`. -/
def newNode (data : Int) (freq : Nat) : MinHeapNode :=
  .mk data freq .null .null

/-- The call `createMinHeap(capacity)`. -/
def createMinHeap (capacity : Nat) : MinHeap :=
  { size := 0, capacity := capacity, array := List.replicate capacity .null }

/-- Read of slot `array[i]`. -/
def MinHeap.slot (h : MinHeap) (i : Nat) : MinHeapNode := h.array.getD i .null

/-- The call `swapMinHeapNode(&array[a], &array[b])`. -/
def swapMinHeapNode (arr : List MinHeapNode) (a b : Nat) : List MinHeapNode :=
  let t := arr.getD a .null
  (arr.set a (arr.getD b .null)).set b t

/-- Body of `minHeapify`, with a fuel for the recursive call. -/
def minHeapifyAux : Nat → MinHeap → Nat → Except Fault MinHeap
  | 0, _, _ => .error .fuel
  | fuel + 1, h, idx =>
    let smallest := idx
    let left := 2 * idx + 1
    let right := 2 * idx + 2
    let smallest :=
      if left < h.size ∧ (h.slot left).freq < (h.slot smallest).freq then left else smallest
    let smallest :=
      if right < h.size ∧ (h.slot right).freq < (h.slot smallest).freq then right else smallest
    if smallest ≠ idx then
      minHeapifyAux fuel { h with array := swapMinHeapNode h.array smallest idx } smallest
    else
      .ok h

/-- The call `minHeapify(minHeap, idx)`. -/
def minHeapify (h : MinHeap) (idx : Nat) : Except Fault MinHeap :=
  minHeapifyAux (h.size + 1) h idx

/-- The call `extractMin(minHeap)`: the returned node and the queue afterwards.
On an empty queue the C code reads `array[size - 1]` with `size - 1` wrapped to
`UINT_MAX`, outside the array. -/
def extractMin (h : MinHeap) : Except Fault (MinHeapNode × MinHeap) :=
  if h.size = 0 ∨ h.array.length < h.size then .error .undefined
  else
    let temp := h.slot 0
    let h1 : MinHeap := { h with array := h.array.set 0 (h.slot (h.size - 1)) }
    let h2 : MinHeap := { h1 with size := h1.size - 1 }
    match minHeapify h2 0 with
    | .ok h3 => .ok (temp, h3)
    | .error e => .error e

/-- The `while` loop of `insertMinHeap`: returns the array and the final `i`. -/
def insertLoop : Nat → List MinHeapNode → Nat → MinHeapNode →
    Except Fault (List MinHeapNode × Nat)
  | 0, _, _, _ => .error .fuel
  | fuel + 1, arr, i, x =>
    if i ≠ 0 ∧ x.freq < (arr.getD ((i - 1) / 2) .null).freq then
      insertLoop fuel (arr.set i (arr.getD ((i - 1) / 2) .null)) ((i - 1) / 2) x
    else
      .ok (arr, i)

/-- The call `insertMinHeap(minHeap, minHeapNode)`. A write past the last slot
of the array is undefined. -/
def insertMinHeap (h : MinHeap) (x : MinHeapNode) : Except Fault MinHeap :=
  if h.array.length ≤ h.size then .error .undefined
  else
    let h1 : MinHeap := { h with size := h.size + 1 }
    let i := h1.size - 1
    match insertLoop (i + 1) h1.array i x with
    | .ok (arr, j) => .ok { h1 with array := arr.set j x }
    | .error e => .error e

/-! ## Tree construction -/

/-- One step of the first loop of `buildHuffmanTree`. -/
def fillStep (freq : FreqTable) (h : MinHeap) (i : Nat) : MinHeap :=
  if freq i > 0 then
    { h with array := h.array.set h.size (newNode (toChar i) (toUnsigned (freq i))),
             size := h.size + 1 }
  else h

/-- The first loop of `buildHuffmanTree`: `for (i = 0; i < 256; i++)`. -/
def fillLeaves (freq : FreqTable) : MinHeap :=
  (List.range 256).foldl (fillStep freq) (createMinHeap 256)

/-- The loop `while (minHeap->size > 1)` of `buildHuffmanTree`. -/
def mergeLoop : Nat → MinHeap → Except Fault MinHeap
  | 0, _ => .error .fuel
  | fuel + 1, h =>
    if h.size > 1 then
      match extractMin h with
      | .error e => .error e
      | .ok (left, h1) =>
        match extractMin h1 with
        | .error e => .error e
        | .ok (right, h2) =>
          -- newNode('$', left->freq + right->freq); top->left = left; top->right = right
          let top := MinHeapNode.mk 36 ((left.freq + right.freq) % 4294967296) left right
          match insertMinHeap h2 top with
          | .error e => .error e
          | .ok h3 => mergeLoop fuel h3
    else .ok h

/-- The call `buildHuffmanTree(freq)`. -/
def buildHuffmanTree (freq : FreqTable) : Except Fault MinHeapNode :=
  match mergeLoop 256 (fillLeaves freq) with
  | .error e => .error e
  | .ok h =>
    match extractMin h with
    | .error e => .error e
    | .ok (root, _) => .ok root

/-! ## Code generation -/

/-- The assignment `code[top] = c` on the buffer `char code[MAX_TREE_HT]` of
`main`: the source has no bound check, and a write at `top >= MAX_TREE_HT` is
outside the buffer, which is undefined. Of the buffer the part that is read
afterwards is kept (positions `0..top`). -/
def writeCode (code : List Char) (top : Nat) (c : Char) : Except Fault (List Char) :=
  if top < MAX_TREE_HT then .ok (code.take top ++ [c]) else .error .undefined

/-- The string `strcpy` reads from a buffer: the characters before the first
NUL. -/
def strcpy (src : List Char) : List Char :=
  src.takeWhile (fun c => c != Char.ofNat 0)

/-- The call `generateCodes(root, code, top, codes)`; the result is the table
`codes` after the call. A call on `NULL` reads `root->left` through the null
pointer, and a write to `code[top]` with `top >= MAX_TREE_HT` leaves the
buffer: both are undefined. At a leaf `strcpy` copies `top` characters and the
terminator into a row of `codes[256][MAX_TREE_HT]`; the terminator `code[top]`
is written just before, so the copy leaves the row exactly when that write
leaves `code`. The recursive calls write `code[top + 1]` and beyond and leave
`code[0..top - 1]` as it is, so the caller passes on its own buffer. -/
def generateCodes : MinHeapNode → List Char → Nat → CodeTable → Except Fault CodeTable
  | .null, _, _, _ => .error .undefined
  | .mk data _ left right, code, top, codes =>
    let r1 : Except Fault CodeTable :=
      if left ≠ .null then
        match writeCode code top '0' with
        | .error e => .error e
        | .ok code0 => generateCodes left code0 (top + 1) codes
      else .ok codes
    match r1 with
    | .error e => .error e
    | .ok codes1 =>
      let r2 : Except Fault CodeTable :=
        if right ≠ .null then
          match writeCode code top '1' with
          | .error e => .error e
          | .ok code1 => generateCodes right code1 (top + 1) codes1
        else .ok codes1
      match r2 with
      | .error e => .error e
      | .ok codes2 =>
        if left = .null ∧ right = .null then
          match writeCode code top (Char.ofNat 0) with
          | .error e => .error e
          | .ok codeZ => .ok (Function.update codes2 (toUChar data) (strcpy codeZ))
        else .ok codes2

/-- The table `char codes[256][MAX_TREE_HT] = {0}` of `main`. -/
def emptyCodes : CodeTable := fun _ => []

/-! ## File passes -/

/-- The call `fgetc(file)`: the value returned and the rest of the stream. -/
def fgetc : List Byte → Int × List Byte
  | [] => (EOF, [])
  | b :: rest => ((b.val : Int), rest)

/-- The loop of `countFrequencies`, on the global table `freq`. -/
def countFrequencies : List Byte → FreqTable → FreqTable
  | [], freq => freq
  | b :: rest, freq =>
    let ch := toChar (fgetc (b :: rest)).1
    if ch ≠ EOF then
      countFrequencies rest
        (Function.update freq (toUChar ch) (wrapInt (freq (toUChar ch) + 1)))
    else freq

/-- The global `int freq[256] = {0}`. -/
def zeroFreq : FreqTable := fun _ => 0

/-- State of the output of `encodeFile`. -/
structure EncState where
  buffer : Nat
  bitCount : Nat
  outBin : List Nat
  outTxt : List Char
  deriving DecidableEq, Repr

/-- Body of the inner `for` loop of `encodeFile` for one character of a code. -/
def encodeBit (s : EncState) (p : Char) : EncState :=
  let buffer := (Int.lor ((s.buffer : Int) * 2) ((p.toNat : Int) - 48) % 256).toNat
  let bitCount := s.bitCount + 1
  let outTxt := s.outTxt ++ [p]
  if bitCount = 8 then
    { buffer := 0, bitCount := 0, outBin := s.outBin ++ [buffer], outTxt := outTxt }
  else
    { buffer := buffer, bitCount := bitCount, outBin := s.outBin, outTxt := outTxt }

/-- The `while` loop of `encodeFile`. -/
def encodeLoop (codes : CodeTable) : List Byte → EncState → EncState
  | [], s => s
  | b :: rest, s =>
    let ch := toChar (fgetc (b :: rest)).1
    if ch ≠ EOF then
      encodeLoop codes rest ((codes (toUChar ch)).foldl encodeBit s)
    else s

/-- The call `encodeFile(in, outBin, outTxt, codes)`: the bytes written to the
binary file and the characters written to the text file. -/
def encodeFile (input : List Byte) (codes : CodeTable) : List Nat × List Char :=
  let s := encodeLoop codes input
    { buffer := 0, bitCount := 0, outBin := [], outTxt := [] }
  if s.bitCount > 0 then
    (s.outBin ++ [(s.buffer * 2 ^ (8 - s.bitCount)) % 256], s.outTxt)
  else (s.outBin, s.outTxt)

/-! ## Notions used in the statements -/

/-- The pointer is a node all of whose descendants are leaves (both children
`NULL`) or have two children. -/
def MinHeapNode.Proper : MinHeapNode → Prop
  | .null => False
  | .mk _ _ l r => (l = .null ∧ r = .null) ∨ (Proper l ∧ Proper r)

/-- Byte values `(unsigned char)data` of the leaves, left to right. -/
def leafBytes : MinHeapNode → List Nat
  | .null => []
  | .mk d _ l r => if l = .null ∧ r = .null then [toUChar d] else leafBytes l ++ leafBytes r

/-- Branches from the root to the leaf carrying `b`: `'0'` left, `'1'` right. -/
def pathTo (b : Nat) : MinHeapNode → List Char
  | .null => []
  | .mk _ _ l r =>
    if l = .null ∧ r = .null then []
    else if b ∈ leafBytes l then '0' :: pathTo b l else '1' :: pathTo b r

/-- Number of edges on the longest downward path. -/
def MinHeapNode.height : MinHeapNode → Nat
  | .null => 0
  | .mk _ _ l r => if l = .null ∧ r = .null then 0 else 1 + max (height l) (height r)

/-- The nodes queued: slots `0 .. size - 1` of the array. -/
def contents (h : MinHeap) : List MinHeapNode := h.array.take h.size

/-- Byte values whose table entry passes the test `freq[i] > 0`, ascending. -/
def presentBytes (freq : FreqTable) : List Nat :=
  (List.range 256).filter (fun i => decide (freq i > 0))

/-- Number of non-zero entries of the table. -/
def nonZeroCount (freq : FreqTable) : Nat :=
  ((List.range 256).filter (fun i => decide (freq i ≠ 0))).length

/-- Min-heap property of the queue array: `array[(i-1)/2].freq <= array[i].freq`
for every index `0 < i < size`. -/
def isMinHeap (h : MinHeap) : Prop :=
  ∀ i, i < h.size → 0 < i → (h.slot ((i - 1) / 2)).freq ≤ (h.slot i).freq

instance (h : MinHeap) : Decidable (isMinHeap h) := by
  unfold isMinHeap; infer_instance

/-- Index chosen by the two tests of `minHeapify`. -/
def pickSmallest (h : MinHeap) (idx : Nat) : Nat :=
  let smallest := idx
  let left := 2 * idx + 1
  let right := 2 * idx + 2
  let smallest :=
    if left < h.size ∧ (h.slot left).freq < (h.slot smallest).freq then left else smallest
  if right < h.size ∧ (h.slot right).freq < (h.slot smallest).freq then right else smallest

/-- Leaf created by the first loop of `buildHuffmanTree` for the byte `i`. -/
def leafOf (freq : FreqTable) (i : Nat) : MinHeapNode :=
  newNode (toChar i) (toUnsigned (freq i))

/-- Multiset of the leaf bytes of the trees of a list. -/
def leavesOf (l : List MinHeapNode) : Multiset Nat :=
  (l : Multiset MinHeapNode).bind (fun t => (leafBytes t : Multiset Nat))

/-- The buffer after `code[top] = c` when the write is inside the buffer
(`writeCode_ok`). -/
def putCode (code : List Char) (top : Nat) (c : Char) : List Char :=
  code.take top ++ [c]

/-- The strings that the writes of `generateCodes` spell, row by row, the
100-character bound of the buffers aside. It is the table `generateCodes`
returns when all its writes are inside the buffers, that is for a tree less
than `MAX_TREE_HT` levels deep (`generateCodes_eq_storeCodes`); for a deeper
tree `generateCodes` has no result (`generateCodes_out_of_bounds`). Used to
reason about the returned table, not a model of the program on its own. -/
def storeCodes : MinHeapNode → List Char → Nat → CodeTable → CodeTable
  | .null, _, _, codes => codes
  | .mk data _ left right, code, top, codes =>
    let codes1 :=
      if left ≠ .null then storeCodes left (putCode code top '0') (top + 1) codes
      else codes
    let codes2 :=
      if right ≠ .null then storeCodes right (putCode code top '1') (top + 1) codes1
      else codes1
    if left = .null ∧ right = .null then
      Function.update codes2 (toUChar data) (strcpy (putCode code top (Char.ofNat 0)))
    else codes2

/-- The statements of `main` from `buildHuffmanTree` to `generateCodes`: the
code table it passes to `encodeFile`. -/
def mainCodes (freq : FreqTable) : Except Fault CodeTable :=
  match buildHuffmanTree freq with
  | .ok root => generateCodes root [] 0 emptyCodes
  | .error e => .error e

/-- Weighted length of a code table: the sum over the present bytes `b` of
`freq[b]` times the length of the code of `b`. -/
def weightedLength (freq : FreqTable) (codes : CodeTable) : Int :=
  (((List.range 256).filter (fun b => decide (freq b ≠ 0))).map
    (fun b => freq b * ((codes b).length : Int))).sum

/-- No code of a present byte is a prefix of the code of another present byte. -/
def prefixFreeOn (freq : FreqTable) (codes : CodeTable) : Prop :=
  ∀ a, a < 256 → freq a ≠ 0 → ∀ b, b < 256 → a ≠ b ∧ freq b ≠ 0 → ¬ codes a <+: codes b

instance (freq : FreqTable) (codes : CodeTable) : Decidable (prefixFreeOn freq codes) := by
  unfold prefixFreeOn; infer_instance

/-- Sum of the code lengths of the bytes of the input. -/
def codeLengthSum (codes : CodeTable) (input : List Byte) : Nat :=
  (input.map (fun b => (codes b.val).length)).sum

/-- The eight bits of a byte, most significant first, as `'0'`/`'1'`. -/
def unpackByte (v : Nat) : List Char :=
  (List.range 8).map (fun k => if (v / 2 ^ (7 - k)) % 2 = 1 then '1' else '0')

/-- The bits of a sequence of bytes, each byte most significant bit first. -/
def unpack (bytes : List Nat) : List Char := (bytes.map unpackByte).flatten

/-- One step of the reference decoder (the program has no decoder): the first
byte value whose non-empty code is a prefix of the bits, and the bits left. -/
def decodeOne (codes : CodeTable) (bits : List Char) : Option (Nat × List Char) :=
  (List.range 256).findSome? (fun b =>
    if codes b ≠ [] ∧ codes b <+: bits then some (b, bits.drop (codes b).length) else none)

/-- Reference decoder by prefix matching against the code table: decodes until
the bits are used up or no code matches. Each step consumes at least one bit,
so a fuel equal to the number of bits is enough. -/
def decode (codes : CodeTable) : Nat → List Char → List Nat
  | 0, _ => []
  | _ + 1, [] => []
  | fuel + 1, c :: bits =>
    match decodeOne codes (c :: bits) with
    | none => []
    | some (b, rest) => b :: decode codes fuel rest

/-- The `w` low bits of `v`, most significant first, as `'0'`/`'1'`. -/
def toBits : Nat → Nat → List Char
  | 0, _ => []
  | w + 1, v => toBits w (v / 2) ++ [if v % 2 = 1 then '1' else '0']

/-- The text that `encodeFile` writes for an input that it reads to the end. -/
def codeText (codes : CodeTable) (input : List Byte) : List Char :=
  (input.map (fun b => codes b.val)).flatten

/-- The bits written so far are the bits of the bytes written followed by the
`bitCount` bits held in `buffer`. -/
def EncState.Packed (s : EncState) : Prop :=
  s.bitCount < 8 ∧ s.buffer < 2 ^ s.bitCount ∧
    unpack s.outBin ++ toBits s.bitCount s.buffer = s.outTxt

/-! ## Concrete inputs -/

/-- The file "aaab". -/
def inputAaab : List Byte := [97, 97, 97, 98]

/-- The file "aaaa". -/
def inputAaaa : List Byte := [97, 97, 97, 97]

/-- The file "aaaaabc". -/
def inputAaaaabc : List Byte := [97, 97, 97, 97, 97, 98, 99]

/-- The file of the three bytes 'a', 'b', 0xFF. -/
def inputAbFF : List Byte := [97, 98, 255]

/-- The file "ab", the byte 0xFF, "abababa". -/
def inputAbFFLong : List Byte := [97, 98, 255, 97, 98, 97, 98, 97, 98, 97]

/-- Table of a file of 304 bytes over the byte values 0 to 101: the bytes 1
and 2 occur 102 times each, the other hundred values once each. -/
def freqDeep : FreqTable := fun i => if i = 1 ∨ i = 2 then 102 else if i < 102 then 1 else 0

/-- Table of a file of 302 bytes over the byte values 0 to 100: the bytes 1
and 2 occur 102 times each, the other ninety-nine values once each. -/
def freqDepth100 : FreqTable := fun i => if i = 1 ∨ i = 2 then 102 else if i < 101 then 1 else 0

/-- A prefix-free assignment for the bytes of "aaaaabc". -/
def altCodes : CodeTable := fun b =>
  if b = 97 then ['0'] else if b = 98 then ['1', '0'] else if b = 99 then ['1', '1'] else []

/-! ## Notions for the queue, the paths, the weights and the loops -/

/-- Min-heap property of the queue except between slot `k` and its children,
whose entries are not lighter than the entry of the parent of `k`. -/
def HeapExcept (h : MinHeap) (k : Nat) : Prop :=
  (∀ i, i < h.size → 0 < i → (i - 1) / 2 ≠ k →
    (h.slot ((i - 1) / 2)).freq ≤ (h.slot i).freq) ∧
  (∀ i, i < h.size → 0 < i → (i - 1) / 2 = k → 0 < k →
    (h.slot ((k - 1) / 2)).freq ≤ (h.slot i).freq)

/-- State of the loop of `insertMinHeap` with the free slot at `i`, on the
first `n` slots: `orig` is the array at the start of the loop, `x` the node
being inserted. -/
def SiftUp (orig : List MinHeapNode) (n : Nat) (x : MinHeapNode) (arr : List MinHeapNode)
    (i : Nat) : Prop :=
  i < n ∧ n ≤ arr.length ∧
  (∀ j, j < n → 0 < j → j ≠ i → (j - 1) / 2 ≠ i →
    (arr.getD ((j - 1) / 2) .null).freq ≤ (arr.getD j .null).freq) ∧
  (∀ j, j < n → 0 < j → (j - 1) / 2 = i → x.freq < (arr.getD j .null).freq) ∧
  (∀ j, j < n → 0 < j → (j - 1) / 2 = i → 0 < i →
    (arr.getD ((i - 1) / 2) .null).freq ≤ (arr.getD j .null).freq) ∧
  (∀ k, k < i → arr.getD k .null = orig.getD k .null) ∧
  (∀ k, i < k → k < n → arr.getD k .null = orig.getD k .null ∨
    (arr.getD k .null = orig.getD ((k - 1) / 2) .null ∧
      x.freq < (orig.getD ((k - 1) / 2) .null).freq))

/-- A queue of capacity 4 holding three leaves of weights 1, 3, 2. -/
def heapThree : MinHeap :=
  { size := 3, capacity := 4,
    array := [newNode 97 1, newNode 98 3, newNode 99 2, .null] }

/-- The leaf reached from the root by the branches `p` (`'0'` left, `'1'`
right) carries the byte value `v`, read as `(unsigned char)data`. -/
inductive LeafAt : MinHeapNode → List Char → Nat → Prop where
  | leaf (d : Int) (f : Nat) : LeafAt (.mk d f .null .null) [] (toUChar d)
  | left (d : Int) (f : Nat) (l r : MinHeapNode) (p : List Char) (v : Nat) :
      LeafAt l p v → LeafAt (.mk d f l r) ('0' :: p) v
  | right (d : Int) (f : Nat) (l r : MinHeapNode) (p : List Char) (v : Nat) :
      LeafAt r p v → LeafAt (.mk d f l r) ('1' :: p) v

/-- A two-leaf tree whose left leaf carries the byte 200, stored in the signed
`char` field as -56. -/
def treeHighByte : MinHeapNode :=
  .mk 36 2 (newNode (toChar 200) 1) (newNode (toChar 97) 1)

/-- The bytes of the input before the first byte 0xFF. -/
def beforeFF (input : List Byte) : List Byte :=
  input.takeWhile (fun c => decide (c.val ≠ 255))

/-- Number of occurrences of the byte value `b` before the first byte 0xFF. -/
def occurrencesBeforeFF (input : List Byte) (b : Nat) : Nat :=
  ((beforeFF input).map (fun c => c.val)).count b

/-- Weights of a tree for the table `freq`: the pointer is a node; a leaf
carries the table entry of its byte; an internal node has two such subtrees and
carries the sum of the weights of its children, exactly (`exact = true`) or
reduced modulo 2^32 (`exact = false`). -/
def WeightsOk (freq : FreqTable) (exact : Bool) : MinHeapNode → Prop
  | .null => False
  | .mk d f l r =>
    (l = .null ∧ r = .null ∧ (f : Int) = freq (toUChar d)) ∨
    (WeightsOk freq exact l ∧ WeightsOk freq exact r ∧
      f = if exact then l.freq + r.freq else (l.freq + r.freq) % 4294967296)

/-- Sum of the weights of the leaves. -/
def leafTotal : MinHeapNode → Nat
  | .null => 0
  | .mk _ f l r => if l = .null ∧ r = .null then f else leafTotal l + leafTotal r

/-- Table with the entry 2^31 - 1 for the bytes 0, 1 and 2. -/
def freqBig : FreqTable := fun i => if i < 3 then 2147483647 else 0

/-- Body of the loop `while (minHeap->size > 1)` of `buildHuffmanTree`. -/
def mergeStep (h : MinHeap) : Except Fault MinHeap :=
  match extractMin h with
  | .error e => .error e
  | .ok (left, h1) =>
    match extractMin h1 with
    | .error e => .error e
    | .ok (right, h2) =>
      insertMinHeap h2 (MinHeapNode.mk 36 ((left.freq + right.freq) % 4294967296) left right)

/-- The queue after `k` runs of the loop body. -/
def iterSteps : Nat → MinHeap → Except Fault MinHeap
  | 0, h => .ok h
  | k + 1, h =>
    match mergeStep h with
    | .error e => .error e
    | .ok h' => iterSteps k h'

/-! ## The queue operations keep the queued nodes -/

theorem coe_set_add {α : Type} (d : α) : ∀ (l : List α) (i : Nat) (a : α), i < l.length →
    ((l.set i a : List α) : Multiset α) + {l.getD i d} = (l : Multiset α) + {a}
  | [], i, a, h => by simp at h
  | x :: t, 0, a, _ => by
    simp only [List.set_cons_zero, List.getD_cons_zero]
    rw [← Multiset.cons_coe, ← Multiset.cons_coe, Multiset.cons_add, Multiset.cons_add,
      add_comm, Multiset.singleton_add, add_comm, Multiset.singleton_add, Multiset.cons_swap]
  | x :: t, i + 1, a, h => by
    have ih := coe_set_add d t i a (by simpa using h)
    simp only [List.set_cons_succ, List.getD_cons_succ]
    rw [← Multiset.cons_coe, ← Multiset.cons_coe, Multiset.cons_add, Multiset.cons_add, ih]

theorem getD_take {α : Type} (l : List α) (n i : Nat) (d : α) (h : i < n) :
    (l.take n).getD i d = l.getD i d := by
  simp [List.getD_eq_getElem?_getD, List.getElem?_take, h]

theorem getD_set_ne {α : Type} (l : List α) (i j : Nat) (a d : α) (h : i ≠ j) :
    (l.set i a).getD j d = l.getD j d := by
  simp [List.getD_eq_getElem?_getD, List.getElem?_set, h]

theorem getD_set_self {α : Type} (l : List α) (i : Nat) (a d : α) (h : i < l.length) :
    (l.set i a).getD i d = a := by
  simp [List.getD_eq_getElem?_getD, List.getElem?_set, h]

theorem take_succ_getD {α : Type} (l : List α) (n : Nat) (d : α) (h : n < l.length) :
    l.take (n + 1) = l.take n ++ [l.getD n d] := by
  rw [List.take_succ]
  simp [List.getD_eq_getElem?_getD, List.getElem?_eq_getElem h]

/-- Exchanging two slots does not change the multiset of a list. -/
theorem coe_swap {α : Type} (d : α) (m : List α) (a b : Nat) (ha : a < m.length)
    (hb : b < m.length) :
    (((m.set a (m.getD b d)).set b (m.getD a d) : List α) : Multiset α) = (m : Multiset α) := by
  have h1 := coe_set_add d m a (m.getD b d) ha
  have h2 := coe_set_add d (m.set a (m.getD b d)) b (m.getD a d) (by simpa using hb)
  have h3 : (m.set a (m.getD b d)).getD b d = m.getD b d := by
    by_cases hab : a = b
    · subst hab; exact getD_set_self _ _ _ _ ha
    · exact getD_set_ne _ _ _ _ _ hab
  rw [h3, h1] at h2
  exact add_right_cancel h2

/-- Moving the entry of slot `p` to slot `i` and writing `x` to slot `p` gives
the same multiset as writing `x` to slot `i`. -/
theorem coe_move {α : Type} (d : α) (m : List α) (i p : Nat) (x : α) (hi : i < m.length)
    (hp : p < m.length) (hne : p ≠ i) :
    (((m.set i (m.getD p d)).set p x : List α) : Multiset α) = ((m.set i x : List α) : Multiset α) := by
  have h1 := coe_set_add d m i (m.getD p d) hi
  have h2 := coe_set_add d (m.set i (m.getD p d)) p x (by simpa using hp)
  have h3 : (m.set i (m.getD p d)).getD p d = m.getD p d := getD_set_ne _ _ _ _ _ (Ne.symm hne)
  have h4 := coe_set_add d m i x hi
  rw [h3] at h2
  have e1 : (((m.set i (m.getD p d)).set p x : List α) : Multiset α) + {m.getD p d} + {m.getD i d}
      = (m : Multiset α) + {m.getD p d} + {x} := by
    rw [h2, add_right_comm, h1]
  have e2 : ((m.set i x : List α) : Multiset α) + {m.getD p d} + {m.getD i d}
      = (m : Multiset α) + {m.getD p d} + {x} := by
    rw [add_right_comm, h4, add_right_comm]
  exact add_right_cancel (add_right_cancel (e1.trans e2.symm))

theorem take_swap (arr : List MinHeapNode) (a b n : Nat) (ha : a < n) (hb : b < n)
    (hn : n ≤ arr.length) :
    (((swapMinHeapNode arr a b).take n : List MinHeapNode) : Multiset MinHeapNode)
      = ((arr.take n : List MinHeapNode) : Multiset MinHeapNode) := by
  unfold swapMinHeapNode
  simp only [List.set_take]
  have := coe_swap MinHeapNode.null (arr.take n) a b (by simp; omega) (by simp; omega)
  rw [getD_take _ _ _ _ ha, getD_take _ _ _ _ hb] at this
  exact this

theorem minHeapifyAux_succ (fuel : Nat) (h : MinHeap) (idx : Nat) :
    minHeapifyAux (fuel + 1) h idx =
      if pickSmallest h idx ≠ idx then
        minHeapifyAux fuel { h with array := swapMinHeapNode h.array (pickSmallest h idx) idx }
          (pickSmallest h idx)
      else .ok h := rfl

theorem pickSmallest_cases (h : MinHeap) (idx : Nat) :
    pickSmallest h idx = idx ∨ (idx < pickSmallest h idx ∧ pickSmallest h idx < h.size) := by
  unfold pickSmallest
  simp only []
  split_ifs <;> omega

theorem minHeapifyAux_spec : ∀ (fuel : Nat) (h : MinHeap) (idx : Nat),
    h.size ≤ h.array.length → h.size - idx < fuel →
    ∃ h', minHeapifyAux fuel h idx = .ok h' ∧ h'.size = h.size ∧ h'.capacity = h.capacity ∧
      h'.array.length = h.array.length ∧
      ((contents h' : List MinHeapNode) : Multiset MinHeapNode) = (contents h : List MinHeapNode)
  | 0, _, _, _, hf => by omega
  | fuel + 1, h, idx, hlen, hf => by
    rw [minHeapifyAux_succ]
    rcases pickSmallest_cases h idx with hs | ⟨hs1, hs2⟩
    · rw [if_neg (by simpa using hs)]
      exact ⟨h, rfl, rfl, rfl, rfl, rfl⟩
    · rw [if_pos (by omega)]
      obtain ⟨h', e, e1, e2, e3, e4⟩ := minHeapifyAux_spec fuel
        { h with array := swapMinHeapNode h.array (pickSmallest h idx) idx } (pickSmallest h idx)
        (by simp [swapMinHeapNode]; exact hlen) (by simp only []; omega)
      refine ⟨h', e, e1, e2, ?_, ?_⟩
      · rw [e3]; simp [swapMinHeapNode]
      · rw [e4]
        exact take_swap h.array _ _ h.size hs2 (by omega) hlen

theorem minHeapify_spec (h : MinHeap) (idx : Nat) (hlen : h.size ≤ h.array.length) :
    ∃ h', minHeapify h idx = .ok h' ∧ h'.size = h.size ∧ h'.capacity = h.capacity ∧
      h'.array.length = h.array.length ∧
      ((contents h' : List MinHeapNode) : Multiset MinHeapNode) = (contents h : List MinHeapNode) :=
  minHeapifyAux_spec (h.size + 1) h idx hlen (by omega)

theorem extractMin_spec (h : MinHeap) (hpos : 0 < h.size) (hlen : h.size ≤ h.array.length) :
    ∃ t h', extractMin h = .ok (t, h') ∧ t = h.slot 0 ∧ h'.size = h.size - 1 ∧
      h'.capacity = h.capacity ∧ h'.array.length = h.array.length ∧
      ((contents h : List MinHeapNode) : Multiset MinHeapNode)
        = t ::ₘ ((contents h' : List MinHeapNode) : Multiset MinHeapNode) := by
  unfold extractMin
  rw [if_neg (by omega)]
  simp only []
  obtain ⟨h3, e, e1, e2, e3, e4⟩ := minHeapify_spec
    { size := h.size - 1, capacity := h.capacity, array := h.array.set 0 (h.slot (h.size - 1)) } 0
    (by simp only [List.length_set]; omega)
  rw [e]
  refine ⟨_, _, rfl, rfl, e1, e2, by rw [e3]; simp, ?_⟩
  rw [e4]
  unfold contents
  simp only [List.set_take]
  have hsz : h.size = (h.size - 1) + 1 := by omega
  have ht : h.array.take h.size = h.array.take (h.size - 1) ++ [h.slot (h.size - 1)] := by
    conv_lhs => rw [hsz]
    exact take_succ_getD _ _ _ (by omega)
  rw [ht]
  by_cases h1 : h.size - 1 = 0
  · rw [h1]
    simp [MinHeap.slot, h1]
  · have := coe_set_add MinHeapNode.null (h.array.take (h.size - 1)) 0 (h.slot (h.size - 1))
      (by simp; omega)
    rw [getD_take _ _ _ _ (by omega)] at this
    simp only [MinHeap.slot] at this ⊢
    rw [← Multiset.singleton_add, add_comm, this, ← Multiset.coe_singleton, Multiset.coe_add]

theorem insertLoop_spec (n : Nat) (x : MinHeapNode) : ∀ (fuel : Nat) (arr : List MinHeapNode)
    (i : Nat), i < n → n ≤ arr.length → i < fuel →
    ∃ arr' j, insertLoop fuel arr i x = .ok (arr', j) ∧ arr'.length = arr.length ∧ j < n ∧
      (((arr'.set j x).take n : List MinHeapNode) : Multiset MinHeapNode)
        = ((arr.set i x).take n : List MinHeapNode)
  | 0, _, _, _, _, hf => by omega
  | fuel + 1, arr, i, hi, hn, hf => by
    unfold insertLoop
    split
    · rename_i hc
      have hp : (i - 1) / 2 < i := by omega
      obtain ⟨arr', j, e, e1, e2, e3⟩ := insertLoop_spec n x fuel
        (arr.set i (arr.getD ((i - 1) / 2) .null)) ((i - 1) / 2) (by omega)
        (by simpa using hn) (by omega)
      refine ⟨arr', j, e, by simpa using e1, e2, ?_⟩
      rw [e3]
      simp only [List.set_take]
      have := coe_move MinHeapNode.null (arr.take n) i ((i - 1) / 2) x (by simp; omega)
        (by simp; omega) (by omega)
      rw [getD_take _ _ _ _ (by omega)] at this
      exact this
    · exact ⟨arr, i, rfl, rfl, hi, rfl⟩

theorem insertMinHeap_spec (h : MinHeap) (x : MinHeapNode) (hlen : h.size < h.array.length) :
    ∃ h', insertMinHeap h x = .ok h' ∧ h'.size = h.size + 1 ∧ h'.capacity = h.capacity ∧
      h'.array.length = h.array.length ∧
      ((contents h' : List MinHeapNode) : Multiset MinHeapNode)
        = x ::ₘ ((contents h : List MinHeapNode) : Multiset MinHeapNode) := by
  unfold insertMinHeap
  rw [if_neg (by omega)]
  simp only [Nat.add_sub_cancel]
  obtain ⟨arr', j, e, e1, _, e3⟩ := insertLoop_spec (h.size + 1) x (h.size + 1) h.array h.size
    (by omega) (by omega) (by omega)
  rw [e]
  refine ⟨_, rfl, rfl, rfl, by simpa using e1, ?_⟩
  unfold contents
  simp only []
  rw [e3, take_succ_getD _ _ MinHeapNode.null (by simpa using hlen),
    getD_set_self _ _ _ _ hlen, List.set_take,
    List.set_eq_of_length_le (by simp), ← Multiset.singleton_add, add_comm,
    ← Multiset.coe_singleton, Multiset.coe_add]

theorem foldl_fillStep (freq : FreqTable) : ∀ (is : List Nat) (h : MinHeap),
    h.size + is.length ≤ h.array.length →
    (is.foldl (fillStep freq) h).array.length = h.array.length ∧
    (is.foldl (fillStep freq) h).capacity = h.capacity ∧
    (is.foldl (fillStep freq) h).size
      = h.size + (is.filter (fun i => decide (freq i > 0))).length ∧
    contents (is.foldl (fillStep freq) h)
      = contents h ++ (is.filter (fun i => decide (freq i > 0))).map (leafOf freq)
  | [], h, _ => by simp
  | i :: is, h, hl => by
    simp only [List.foldl_cons, List.length_cons] at hl ⊢
    by_cases hp : freq i > 0
    · have hs : fillStep freq h i = { h with
          array := h.array.set h.size (leafOf freq i), size := h.size + 1 } := by
        simp [fillStep, hp, leafOf]
      obtain ⟨e1, e2, e3, e4⟩ := foldl_fillStep freq is (fillStep freq h i)
        (by rw [hs]; simp only [List.length_set]; omega)
      rw [e1, e2, e3, e4, hs]
      simp only [List.length_set, List.filter_cons, hp, decide_True, if_true, List.length_cons,
        List.map_cons, contents]
      refine ⟨trivial, trivial, by omega, ?_⟩
      rw [take_succ_getD _ _ MinHeapNode.null (by simp only [List.length_set]; omega),
        getD_set_self _ _ _ _ (by omega), List.set_take, List.set_eq_of_length_le (by simp)]
      simp
    · have hs : fillStep freq h i = h := by simp [fillStep, hp]
      obtain ⟨e1, e2, e3, e4⟩ := foldl_fillStep freq is (fillStep freq h i)
        (by rw [hs]; omega)
      rw [e1, e2, e3, e4, hs]
      simp [List.filter_cons, hp]

theorem presentBytes_length_le (freq : FreqTable) : (presentBytes freq).length ≤ 256 := by
  unfold presentBytes
  exact (List.length_filter_le _ _).trans (by simp)

theorem fillLeaves_spec (freq : FreqTable) :
    (fillLeaves freq).array.length = 256 ∧ (fillLeaves freq).capacity = 256 ∧
    (fillLeaves freq).size = (presentBytes freq).length ∧
    contents (fillLeaves freq) = (presentBytes freq).map (leafOf freq) := by
  obtain ⟨e1, e2, e3, e4⟩ := foldl_fillStep freq (List.range 256) (createMinHeap 256)
    (by simp only [createMinHeap, List.length_replicate, List.length_range]; omega)
  unfold fillLeaves presentBytes
  rw [e1, e2, e3, e4]
  simp only [createMinHeap, contents, List.length_replicate, List.take_zero, List.nil_append,
    Nat.zero_add, and_self]

theorem Proper_ne_null {t : MinHeapNode} (h : t.Proper) : t ≠ .null := by
  intro e; subst e; exact h

theorem mergeLoop_spec : ∀ (fuel : Nat) (h : MinHeap), h.size ≤ h.array.length → 1 ≤ h.size →
    h.size ≤ fuel → (∀ t ∈ contents h, t.Proper) →
    ∃ h', mergeLoop fuel h = .ok h' ∧ h'.size = 1 ∧ h'.size ≤ h'.array.length ∧
      (∀ t ∈ contents h', t.Proper) ∧ leavesOf (contents h') = leavesOf (contents h)
  | 0, _, _, h1, hf, _ => by omega
  | fuel + 1, h, hlen, h1, hf, hP => by
    unfold mergeLoop
    split
    · rename_i hgt
      obtain ⟨l, ha, ea, _, sa, _, la, ca⟩ := extractMin_spec h (by omega) hlen
      obtain ⟨r, hb, eb, _, sb, _, lb, cb⟩ := extractMin_spec ha (by omega) (by omega)
      obtain ⟨hc, ec, sc, _, lc, cc⟩ := insertMinHeap_spec hb
        (MinHeapNode.mk 36 ((l.freq + r.freq) % 4294967296) l r) (by omega)
      rw [ea]; simp only []
      rw [eb]; simp only []
      rw [ec]; simp only []
      have hPl : l.Proper := hP l (by
        rw [← Multiset.mem_coe, ca]; exact Multiset.mem_cons_self _ _)
      have hPa : ∀ t ∈ contents ha, t.Proper := fun t ht => hP t (by
        rw [← Multiset.mem_coe, ca]; exact Multiset.mem_cons_of_mem (Multiset.mem_coe.2 ht))
      have hPr : r.Proper := hPa r (by
        rw [← Multiset.mem_coe, cb]; exact Multiset.mem_cons_self _ _)
      have hPb : ∀ t ∈ contents hb, t.Proper := fun t ht => hPa t (by
        rw [← Multiset.mem_coe, cb]; exact Multiset.mem_cons_of_mem (Multiset.mem_coe.2 ht))
      have hPc : ∀ t ∈ contents hc, t.Proper := by
        intro t ht
        rw [← Multiset.mem_coe, cc, Multiset.mem_cons] at ht
        rcases ht with rfl | ht
        · exact Or.inr ⟨hPl, hPr⟩
        · exact hPb t (Multiset.mem_coe.1 ht)
      obtain ⟨h', e, s', l', P', L'⟩ := mergeLoop_spec fuel hc (by omega) (by omega) (by omega) hPc
      refine ⟨h', e, s', l', P', ?_⟩
      rw [L']
      unfold leavesOf
      rw [cc, ca, cb]
      simp only [Multiset.cons_bind]
      have : leafBytes (MinHeapNode.mk 36 ((l.freq + r.freq) % 4294967296) l r)
          = leafBytes l ++ leafBytes r := by
        simp [leafBytes, Proper_ne_null hPl]
      rw [this, ← Multiset.coe_add, add_assoc]
    · rename_i hgt
      exact ⟨h, rfl, by omega, hlen, hP, rfl⟩

theorem Proper_leafOf (freq : FreqTable) (i : Nat) : (leafOf freq i).Proper :=
  Or.inl ⟨rfl, rfl⟩

theorem toUChar_toChar (i : Nat) (h : i < 256) : toUChar (toChar i) = i := by
  unfold toUChar toChar
  omega

theorem leavesOf_map_leafOf (freq : FreqTable) : ∀ (l : List Nat), (∀ i ∈ l, i < 256) →
    leavesOf (l.map (leafOf freq)) = (l : Multiset Nat)
  | [], _ => by simp [leavesOf]
  | i :: l, hl => by
    have ih := leavesOf_map_leafOf freq l (fun j hj => hl j (List.mem_cons_of_mem _ hj))
    unfold leavesOf at ih ⊢
    rw [List.map_cons, ← Multiset.cons_coe, Multiset.cons_bind, ih]
    have : leafBytes (leafOf freq i) = [i] := by
      simp [leafOf, newNode, leafBytes, toUChar_toChar i (hl i (List.mem_cons_self _ _))]
    rw [this, Multiset.coe_add]
    rfl

theorem buildHuffmanTree_spec (freq : FreqTable) (h1 : 1 ≤ (presentBytes freq).length) :
    ∃ root, buildHuffmanTree freq = .ok root ∧ root.Proper ∧
      (leafBytes root).Perm (presentBytes freq) := by
  obtain ⟨f1, _, f3, f4⟩ := fillLeaves_spec freq
  have hle := presentBytes_length_le freq
  obtain ⟨h', e, s', l', P', L'⟩ := mergeLoop_spec 256 (fillLeaves freq) (by omega) (by omega)
    (by omega) (by
      rw [f4]; intro t ht
      obtain ⟨i, _, rfl⟩ := List.mem_map.1 ht
      exact Proper_leafOf freq i)
  obtain ⟨root, h'', e2, _, s2, _, _, c2⟩ := extractMin_spec h' (by omega) l'
  unfold buildHuffmanTree
  rw [e]; simp only []
  rw [e2]; simp only []
  have hnil : contents h'' = [] := by
    unfold contents; rw [s2, s']; rfl
  refine ⟨root, rfl, P' root (by rw [← Multiset.mem_coe, c2]; exact Multiset.mem_cons_self _ _), ?_⟩
  have hL : leavesOf (contents h') = (leafBytes root : Multiset Nat) := by
    unfold leavesOf
    rw [c2, hnil]
    simp
  rw [L', f4] at hL
  rw [← Multiset.coe_eq_coe, ← hL]
  exact leavesOf_map_leafOf freq _ (fun i hi => by
    have := (List.mem_filter.1 hi).1
    exact List.mem_range.1 this)

/-! ## Codes and paths -/

theorem leafBytes_node (d : Int) (f : Nat) {l r : MinHeapNode} (hl : l.Proper) :
    leafBytes (.mk d f l r) = leafBytes l ++ leafBytes r := by
  simp [leafBytes, Proper_ne_null hl]

theorem pathTo_node (b : Nat) (d : Int) (f : Nat) {l r : MinHeapNode} (hl : l.Proper) :
    pathTo b (.mk d f l r)
      = if b ∈ leafBytes l then '0' :: pathTo b l else '1' :: pathTo b r := by
  simp [pathTo, Proper_ne_null hl]

theorem strcpy_putCode (code : List Char) (top : Nat)
    (h : ∀ c ∈ code.take top, c ≠ Char.ofNat 0) :
    strcpy (putCode code top (Char.ofNat 0)) = code.take top := by
  unfold strcpy putCode
  rw [List.takeWhile_append_of_pos (by simpa using h)]
  simp [List.takeWhile]

theorem storeCodes_spec (t : MinHeapNode) : t.Proper → (leafBytes t).Nodup →
    ∀ (code : List Char) (top : Nat) (codes : CodeTable) (b : Nat), top ≤ code.length →
    (∀ c ∈ code.take top, c ≠ Char.ofNat 0) →
    storeCodes t code top codes b
      = if b ∈ leafBytes t then code.take top ++ pathTo b t else codes b := by
  induction t with
  | null => intro h; exact h.elim
  | mk d f l r ihl ihr =>
    intro hP hN code top codes b htop hnul
    rcases hP with ⟨rfl, rfl⟩ | ⟨hl, hr⟩
    · simp only [storeCodes, leafBytes, pathTo, ne_eq, not_true_eq_false, if_false, and_self,
        if_true, List.mem_singleton, List.append_nil, Function.update_apply,
        strcpy_putCode code top hnul]
    · have hl0 := Proper_ne_null hl
      have hr0 := Proper_ne_null hr
      rw [leafBytes_node d f hl] at hN ⊢
      rw [pathTo_node b d f hl]
      obtain ⟨hNl, hNr, hdis⟩ := List.nodup_append.1 hN
      have hlen : top + 1 ≤ (putCode code top '0').length := by
        simp [putCode]; omega
      have hlen1 : top + 1 ≤ (putCode code top '1').length := by
        simp [putCode]; omega
      have ht0 : (putCode code top '0').take (top + 1) = code.take top ++ ['0'] := by
        apply List.take_of_length_le; simp [putCode]
      have ht1 : (putCode code top '1').take (top + 1) = code.take top ++ ['1'] := by
        apply List.take_of_length_le; simp [putCode]
      have hn0 : ∀ c ∈ (putCode code top '0').take (top + 1), c ≠ Char.ofNat 0 := by
        rw [ht0]; intro c hc
        rcases List.mem_append.1 hc with hc | hc
        · exact hnul c hc
        · rw [List.mem_singleton.1 hc]; decide
      have hn1 : ∀ c ∈ (putCode code top '1').take (top + 1), c ≠ Char.ofNat 0 := by
        rw [ht1]; intro c hc
        rcases List.mem_append.1 hc with hc | hc
        · exact hnul c hc
        · rw [List.mem_singleton.1 hc]; decide
      simp only [storeCodes, ne_eq, hl0, hr0, not_false_eq_true, if_true, false_and, if_false]
      rw [ihr hr hNr _ _ _ _ hlen1 hn1, ihl hl hNl _ _ _ _ hlen hn0, ht0, ht1]
      by_cases hbl : b ∈ leafBytes l
      · have hbr : b ∉ leafBytes r := fun h => hdis hbl h
        simp [List.mem_append, hbl, hbr]
      · by_cases hbr : b ∈ leafBytes r
        · simp [List.mem_append, hbl, hbr]
        · simp [List.mem_append, hbl, hbr]

theorem pathTo_incomparable (t : MinHeapNode) : t.Proper → (leafBytes t).Nodup →
    ∀ a b, a ∈ leafBytes t → b ∈ leafBytes t → a ≠ b → ¬ pathTo a t <+: pathTo b t := by
  induction t with
  | null => intro h; exact h.elim
  | mk d f l r ihl ihr =>
    intro hP hN a b ha hb hab
    rcases hP with ⟨rfl, rfl⟩ | ⟨hl, hr⟩
    · simp only [leafBytes, and_self, if_true, List.mem_singleton] at ha hb
      exact absurd (ha.trans hb.symm) hab
    · rw [leafBytes_node d f hl] at hN ha hb
      rw [pathTo_node a d f hl, pathTo_node b d f hl]
      obtain ⟨hNl, hNr, hdis⟩ := List.nodup_append.1 hN
      rw [List.mem_append] at ha hb
      by_cases hal : a ∈ leafBytes l <;> by_cases hbl : b ∈ leafBytes l
      · simp only [hal, hbl, if_true, List.cons_prefix_cons, true_and]
        exact ihl hl hNl a b hal hbl hab
      · simp only [hal, hbl, if_true, if_false, List.cons_prefix_cons]
        rintro ⟨h, _⟩; exact absurd h (by decide)
      · simp only [hal, hbl, if_true, if_false, List.cons_prefix_cons]
        rintro ⟨h, _⟩; exact absurd h (by decide)
      · simp only [hal, hbl, if_false, List.cons_prefix_cons, true_and]
        exact ihr hr hNr a b (ha.resolve_left hal) (hb.resolve_left hbl) hab

theorem leafBytes_pos (t : MinHeapNode) : t.Proper → 1 ≤ (leafBytes t).length := by
  induction t with
  | null => intro h; exact h.elim
  | mk d f l r ihl _ =>
    intro hP
    rcases hP with ⟨rfl, rfl⟩ | ⟨hl, hr⟩
    · simp [leafBytes]
    · rw [leafBytes_node d f hl, List.length_append]
      have := ihl hl
      omega

theorem pathTo_length (t : MinHeapNode) : t.Proper →
    ∀ b, (pathTo b t).length + 1 ≤ (leafBytes t).length := by
  induction t with
  | null => intro h; exact h.elim
  | mk d f l r ihl ihr =>
    intro hP b
    rcases hP with ⟨rfl, rfl⟩ | ⟨hl, hr⟩
    · simp [leafBytes, pathTo]
    · rw [leafBytes_node d f hl, pathTo_node b d f hl, List.length_append]
      have h1 := ihl hl b
      have h2 := ihr hr b
      have h3 := leafBytes_pos l hl
      have h4 := leafBytes_pos r hr
      split <;> simp only [List.length_cons] <;> omega

theorem height_lt_leaves (t : MinHeapNode) : t.Proper →
    t.height + 1 ≤ (leafBytes t).length := by
  induction t with
  | null => intro h; exact h.elim
  | mk d f l r ihl ihr =>
    intro hP
    rcases hP with ⟨rfl, rfl⟩ | ⟨hl, hr⟩
    · simp [leafBytes, MinHeapNode.height]
    · rw [leafBytes_node d f hl, List.length_append]
      have h1 := ihl hl
      have h2 := ihr hr
      have h3 := leafBytes_pos l hl
      have h4 := leafBytes_pos r hr
      simp only [MinHeapNode.height, Proper_ne_null hl, false_and, if_false]
      omega

theorem single_leaf_of_one (t : MinHeapNode) (hP : t.Proper) (h1 : (leafBytes t).length = 1) :
    t.left = .null ∧ t.right = .null := by
  cases t with
  | null => exact hP.elim
  | mk d f l r =>
    rcases hP with ⟨rfl, rfl⟩ | ⟨hl, hr⟩
    · exact ⟨rfl, rfl⟩
    · rw [leafBytes_node d f hl, List.length_append] at h1
      have := leafBytes_pos l hl
      have := leafBytes_pos r hr
      omega

theorem pathTo_ne_nil (t : MinHeapNode) (hP : t.Proper) (h2 : 2 ≤ (leafBytes t).length)
    (b : Nat) : 1 ≤ (pathTo b t).length := by
  cases t with
  | null => exact hP.elim
  | mk d f l r =>
    rcases hP with ⟨rfl, rfl⟩ | ⟨hl, hr⟩
    · simp [leafBytes] at h2
    · rw [pathTo_node b d f hl]
      split <;> simp

theorem presentBytes_eq_of_nonneg (freq : FreqTable) (hnn : ∀ i, i < 256 → 0 ≤ freq i) :
    presentBytes freq = (List.range 256).filter (fun i => decide (freq i ≠ 0)) := by
  unfold presentBytes
  apply List.filter_congr
  intro i hi
  have := hnn i (List.mem_range.1 hi)
  simp only [gt_iff_lt, ne_eq, decide_eq_decide]
  omega

theorem presentBytes_nodup (freq : FreqTable) : (presentBytes freq).Nodup :=
  (List.nodup_range 256).filter _

theorem mem_presentBytes (freq : FreqTable) (b : Nat) :
    b ∈ presentBytes freq ↔ b < 256 ∧ 0 < freq b := by
  simp [presentBytes]

/-- The rows of `storeCodes` for a table with a positive entry: the tree is
built, and every present byte has the path to its leaf, every other byte the
empty string. -/
theorem codes_of_build (freq : FreqTable) (h1 : 1 ≤ (presentBytes freq).length)
    (code : List Char) :
    ∃ root, buildHuffmanTree freq = .ok root ∧ root.Proper ∧
      (leafBytes root).Perm (presentBytes freq) ∧ (leafBytes root).Nodup ∧
      ∀ b, storeCodes root code 0 emptyCodes b
        = if b ∈ presentBytes freq then pathTo b root else [] := by
  obtain ⟨root, e, hP, hL⟩ := buildHuffmanTree_spec freq h1
  have hN : (leafBytes root).Nodup := hL.nodup_iff.2 (presentBytes_nodup freq)
  refine ⟨root, e, hP, hL, hN, fun b => ?_⟩
  rw [storeCodes_spec root hP hN code 0 emptyCodes b (Nat.zero_le _) (by simp)]
  simp only [List.take_zero, List.nil_append, hL.mem_iff, emptyCodes]

theorem nonZeroCount_eq (freq : FreqTable) (hnn : ∀ i, i < 256 → 0 ≤ freq i) :
    nonZeroCount freq = (presentBytes freq).length := by
  rw [presentBytes_eq_of_nonneg freq hnn, nonZeroCount]

theorem mem_presentBytes_of_ne (freq : FreqTable) (hnn : ∀ i, i < 256 → 0 ≤ freq i) (b : Nat)
    (hb : b < 256) (h : freq b ≠ 0) : b ∈ presentBytes freq := by
  rw [mem_presentBytes]
  have := hnn b hb
  exact ⟨hb, by omega⟩

/-- A write below `MAX_TREE_HT` is inside the buffer. -/
theorem writeCode_ok (code : List Char) (top : Nat) (c : Char) (h : top < MAX_TREE_HT) :
    writeCode code top c = .ok (putCode code top c) := by
  unfold writeCode putCode
  rw [if_pos h]

/-- A write at `MAX_TREE_HT` or beyond is outside the buffer. -/
theorem writeCode_out (code : List Char) (top : Nat) (c : Char) (h : MAX_TREE_HT ≤ top) :
    writeCode code top c = .error .undefined := by
  unfold writeCode
  rw [if_neg (by omega)]

theorem height_node (d : Int) (f : Nat) (l r : MinHeapNode) (h : ¬ (l = .null ∧ r = .null)) :
    (MinHeapNode.mk d f l r).height = 1 + max l.height r.height := by
  simp [MinHeapNode.height, h]

/-- While `top` plus the height of the tree stays below `MAX_TREE_HT`, every
write of `generateCodes` is inside the buffers and the call returns the table
`storeCodes`. -/
theorem generateCodes_eq_storeCodes (t : MinHeapNode) :
    ∀ (code : List Char) (top : Nat) (codes : CodeTable), t ≠ .null →
    top + t.height < MAX_TREE_HT →
    generateCodes t code top codes = .ok (storeCodes t code top codes) := by
  induction t with
  | null => intro _ _ _ h; exact absurd rfl h
  | mk d f l r ihl ihr =>
    intro code top codes _ hh
    by_cases hleaf : l = .null ∧ r = .null
    · obtain ⟨rfl, rfl⟩ := hleaf
      have ht : top < MAX_TREE_HT := by omega
      simp [generateCodes, storeCodes, writeCode_ok _ _ _ ht]
    · rw [height_node d f l r hleaf] at hh
      have ht : top < MAX_TREE_HT := by omega
      by_cases hl : l = .null
      · have hr : r ≠ .null := fun h => hleaf ⟨hl, h⟩
        subst hl
        have ir := fun code codes => ihr code (top + 1) codes hr (by
          simp only [MinHeapNode.height] at hh; omega)
        simp [generateCodes, storeCodes, hr, writeCode_ok _ _ _ ht, ir]
      · have il := fun code codes => ihl code (top + 1) codes hl (by omega)
        by_cases hr : r = .null
        · subst hr
          simp [generateCodes, storeCodes, hl, writeCode_ok _ _ _ ht, il]
        · have ir := fun code codes => ihr code (top + 1) codes hr (by omega)
          simp [generateCodes, storeCodes, hl, hr, writeCode_ok _ _ _ ht, il, ir]

/-- Called with `top = 0`, `generateCodes` does not depend on what the scratch
buffer holds. -/
theorem generateCodes_top_zero (root : MinHeapNode) (code : List Char) (codes : CodeTable) :
    generateCodes root code 0 codes = generateCodes root [] 0 codes := by
  cases root <;> simp [generateCodes, writeCode]

/-- When `top` plus the height of the tree reaches `MAX_TREE_HT`, the call of
`generateCodes` writes outside the buffer `code`. -/
theorem generateCodes_out_of_bounds (t : MinHeapNode) :
    ∀ (code : List Char) (top : Nat) (codes : CodeTable),
    MAX_TREE_HT ≤ top + t.height →
    generateCodes t code top codes = .error .undefined := by
  induction t with
  | null => intro _ _ _ _; rfl
  | mk d f l r ihl ihr =>
    intro code top codes hh
    by_cases ht : top < MAX_TREE_HT
    · by_cases hleaf : l = .null ∧ r = .null
      · simp only [MinHeapNode.height, hleaf, and_self, if_true] at hh
        omega
      · rw [height_node d f l r hleaf] at hh
        by_cases hl : l = .null
        · have hr : r ≠ .null := fun h => hleaf ⟨hl, h⟩
          subst hl
          have ir := fun code codes => ihr code (top + 1) codes (by
            simp only [MinHeapNode.height] at hh; omega)
          simp [generateCodes, hr, writeCode_ok _ _ _ ht, ir]
        · by_cases hdeep : MAX_TREE_HT ≤ top + 1 + l.height
          · have il := fun code codes => ihl code (top + 1) codes hdeep
            simp [generateCodes, hl, writeCode_ok _ _ _ ht, il]
          · have il := fun code codes =>
              generateCodes_eq_storeCodes l code (top + 1) codes hl (by omega)
            have hr : r ≠ .null := by
              rintro rfl
              simp only [MinHeapNode.height] at hh
              omega
            have ir := fun code codes => ihr code (top + 1) codes (by omega)
            simp [generateCodes, hl, hr, writeCode_ok _ _ _ ht, il, ir]
    · have ho : MAX_TREE_HT ≤ top := by omega
      by_cases hl : l = .null
      · by_cases hr : r = .null
        · subst hl; subst hr
          simp [generateCodes, writeCode_out _ _ _ ho]
        · subst hl
          simp [generateCodes, hr, writeCode_out _ _ _ ho]
      · simp [generateCodes, hl, writeCode_out _ _ _ ho]

/-- The table `main` gets from `generateCodes` for a frequency table with a
positive entry: the tree is built, its height is below the number of present
bytes, and when the height is below `MAX_TREE_HT` the call returns a table in
which every present byte has the path to its leaf and every other byte keeps
the empty string. -/
theorem generateCodes_of_build (freq : FreqTable) (h1 : 1 ≤ (presentBytes freq).length)
    (code : List Char) :
    ∃ root, buildHuffmanTree freq = .ok root ∧ root.Proper ∧
      (leafBytes root).Perm (presentBytes freq) ∧ (leafBytes root).Nodup ∧
      root.height + 1 ≤ (presentBytes freq).length ∧
      (root.height < MAX_TREE_HT →
        ∃ codes, generateCodes root code 0 emptyCodes = .ok codes ∧
          ∀ b, codes b = if b ∈ presentBytes freq then pathTo b root else []) := by
  obtain ⟨root, e, hP, hL, hN, hc⟩ := codes_of_build freq h1 code
  refine ⟨root, e, hP, hL, hN, ?_, fun hh => ⟨_, ?_, hc⟩⟩
  · rw [← hL.length_eq]
    exact height_lt_leaves root hP
  · exact generateCodes_eq_storeCodes root code 0 emptyCodes (Proper_ne_null hP) (by omega)

/-- Prefix-freeness inside the buffers: for a frequency table (non-negative
counts) with at least two non-zero entries whose tree is less than
`MAX_TREE_HT` levels deep, `generateCodes` returns a table in which no code of
a present byte is a prefix of the code of another present byte. -/
theorem prefix_free_within_buffers (freq : FreqTable) (hnn : ∀ i, i < 256 → 0 ≤ freq i)
    (h2 : 2 ≤ nonZeroCount freq) (code : List Char) :
    ∃ root, buildHuffmanTree freq = .ok root ∧
      (root.height < MAX_TREE_HT →
        ∃ codes, generateCodes root code 0 emptyCodes = .ok codes ∧
          ∀ a b, a < 256 → b < 256 → a ≠ b → freq a ≠ 0 → freq b ≠ 0 →
            ¬ (codes a <+: codes b) ∧ ¬ (codes b <+: codes a)) := by
  rw [nonZeroCount_eq freq hnn] at h2
  obtain ⟨root, e, hP, hL, hN, _, hg⟩ := generateCodes_of_build freq (by omega) code
  refine ⟨root, e, fun hh => ?_⟩
  obtain ⟨codes, eg, hc⟩ := hg hh
  refine ⟨codes, eg, fun a b ha hb hab hfa hfb => ?_⟩
  have hma := mem_presentBytes_of_ne freq hnn a ha hfa
  have hmb := mem_presentBytes_of_ne freq hnn b hb hfb
  rw [hc a, hc b, if_pos hma, if_pos hmb]
  exact ⟨pathTo_incomparable root hP hN a b (hL.mem_iff.2 hma) (hL.mem_iff.2 hmb) hab,
    pathTo_incomparable root hP hN b a (hL.mem_iff.2 hmb) (hL.mem_iff.2 hma) (Ne.symm hab)⟩

/-- Depth bound of the tree, and of the codes inside the buffers: for a
frequency table (non-negative counts) with `n >= 1` non-zero entries the tree
returned by `buildHuffmanTree` has height at most `n - 1`, and when the height
is below `MAX_TREE_HT`, `generateCodes` returns a table in which every present
byte has a code of length at most `n - 1`. -/
theorem code_length_within_buffers (freq : FreqTable) (hnn : ∀ i, i < 256 → 0 ≤ freq i)
    (h1 : 1 ≤ nonZeroCount freq) (code : List Char) :
    ∃ root, buildHuffmanTree freq = .ok root ∧ root.height ≤ nonZeroCount freq - 1 ∧
      (root.height < MAX_TREE_HT →
        ∃ codes, generateCodes root code 0 emptyCodes = .ok codes ∧
          ∀ b, b < 256 → freq b ≠ 0 → (codes b).length ≤ nonZeroCount freq - 1) := by
  rw [nonZeroCount_eq freq hnn] at h1 ⊢
  obtain ⟨root, e, hP, hL, _, hht, hg⟩ := generateCodes_of_build freq h1 code
  have hlen := hL.length_eq
  refine ⟨root, e, by omega, fun hh => ?_⟩
  obtain ⟨codes, eg, hc⟩ := hg hh
  refine ⟨codes, eg, fun b hb hfb => ?_⟩
  rw [hc b, if_pos (mem_presentBytes_of_ne freq hnn b hb hfb)]
  have := pathTo_length root hP b
  omega

/-- The height of the tree that `buildHuffmanTree` returns for `freqDepth100`
and for `freqDeep`. -/
theorem height_of_deep_tables :
    (buildHuffmanTree freqDepth100).map MinHeapNode.height = .ok 100 ∧
    (buildHuffmanTree freqDeep).map MinHeapNode.height = .ok 101 := by
  constructor <;> decide!

/-! ## The two passes over the file -/

theorem toChar_byte_eq_EOF (b : Byte) : toChar (b.val : Int) = EOF ↔ b.val = 255 := by
  have := b.isLt
  unfold toChar EOF
  omega

theorem toUChar_toChar_byte (b : Byte) : toUChar (toChar (b.val : Int)) = b.val :=
  toUChar_toChar b.val b.isLt

/-- The loop of `countFrequencies` ends at the first byte 0xFF: what follows
it in the file is never read. -/
theorem countFrequencies_stops_at_ff (post : List Byte) : ∀ (pre : List Byte) (freq : FreqTable),
    countFrequencies (pre ++ (255 : Byte) :: post) freq = countFrequencies pre freq
  | [], freq => by
    have h : toChar (((255 : Byte).val : Nat) : Int) = EOF := (toChar_byte_eq_EOF 255).2 rfl
    simp only [List.nil_append, countFrequencies, fgetc, ne_eq, h, not_true_eq_false, if_false]
  | b :: pre, freq => by
    simp only [List.cons_append, countFrequencies, fgetc]
    split
    · exact countFrequencies_stops_at_ff post pre _
    · rfl

/-- The loop of `encodeFile` ends at the first byte 0xFF as well. -/
theorem encodeLoop_stops_at_ff (codes : CodeTable) (post : List Byte) :
    ∀ (pre : List Byte) (s : EncState),
    encodeLoop codes (pre ++ (255 : Byte) :: post) s = encodeLoop codes pre s
  | [], s => by
    have h : toChar (((255 : Byte).val : Nat) : Int) = EOF := (toChar_byte_eq_EOF 255).2 rfl
    simp only [List.nil_append, encodeLoop, fgetc, ne_eq, h, not_true_eq_false, if_false]
  | b :: pre, s => by
    simp only [List.cons_append, encodeLoop, fgetc]
    split
    · exact encodeLoop_stops_at_ff codes post pre _
    · rfl

theorem wrapInt_succ (x : Int) (h0 : 0 ≤ x) (h1 : x + 1 < 2147483648) : wrapInt (x + 1) = x + 1 := by
  unfold wrapInt
  omega

/-- On a file without the byte 0xFF and with fewer than 2^31 bytes more than
any entry, `countFrequencies` adds to each entry the number of occurrences of
its byte. -/
theorem countFrequencies_apply : ∀ (input : List Byte) (freq : FreqTable),
    (∀ b ∈ input, b.val ≠ 255) →
    (∀ i, 0 ≤ freq i ∧ freq i + input.length < 2147483648) →
    ∀ i, countFrequencies input freq i = freq i + ((input.map (fun b => b.val)).count i : Int)
  | [], freq, _, _, i => by simp [countFrequencies]
  | b :: rest, freq, hff, hb, i => by
    have hne : toChar ((b.val : Nat) : Int) ≠ EOF := fun h =>
      hff b (List.mem_cons_self _ _) ((toChar_byte_eq_EOF b).1 h)
    simp only [countFrequencies, fgetc, ne_eq, hne, not_false_eq_true, if_true,
      toUChar_toChar_byte]
    have hbb := hb b.val
    simp only [List.length_cons, Nat.cast_add, Nat.cast_one] at hbb
    rw [wrapInt_succ _ hbb.1 (by omega)]
    rw [countFrequencies_apply rest _ (fun c hc => hff c (List.mem_cons_of_mem _ hc)) (by
      intro j
      have hj := hb j
      simp only [List.length_cons, Nat.cast_add, Nat.cast_one] at hj
      by_cases hjb : j = b.val
      · subst hjb; simp only [Function.update_same]; omega
      · simp only [Function.update_noteq hjb]; omega) i]
    simp only [List.map_cons, List.count_cons]
    by_cases hib : i = b.val
    · subst hib; simp; omega
    · have : ¬ ((b.val) == i) = true := by simpa using (Ne.symm hib)
      simp [Function.update_noteq hib, this]

theorem sum_count_range (l : List Nat) (n : Nat) (h : ∀ x ∈ l, x < n) :
    ((List.range n).map (fun i => (l.count i : Int))).sum = l.length := by
  induction l with
  | nil => simp
  | cons x l ih =>
    have ih' := ih (fun y hy => h y (List.mem_cons_of_mem _ hy))
    have hx := h x (List.mem_cons_self _ _)
    have : ∀ i, ((x :: l).count i : Int) = (l.count i : Int) + (if i = x then 1 else 0) := by
      intro i
      rw [List.count_cons]
      by_cases hix : i = x
      · subst hix; simp
      · have : ¬ ((x == i) = true) := by simpa using (Ne.symm hix)
        simp [hix, this]
    simp only [this, List.length_cons, Nat.cast_add, Nat.cast_one]
    rw [List.sum_map_add, ih']
    congr 1
    clear ih ih' this h
    induction n with
    | zero => omega
    | succ n ihn =>
      rw [List.range_succ, List.map_append, List.sum_append]
      by_cases hxn : x < n
      · rw [ihn hxn]
        have : n ≠ x := by omega
        simp [this]
      · have hxn' : x = n := by omega
        subst hxn'
        have : ((List.range x).map (fun i => if i = x then (1 : Int) else 0)).sum = 0 := by
          apply List.sum_eq_zero
          intro y hy
          obtain ⟨i, hi, rfl⟩ := List.mem_map.1 hy
          have := List.mem_range.1 hi
          simp; omega
        rw [this]; simp

/-- On a file without the byte 0xFF and shorter than 2^31 bytes, the entries of
the table filled by `countFrequencies` sum to the length of the file. -/
theorem countFrequencies_sum (input : List Byte) (hff : ∀ b ∈ input, b.val ≠ 255)
    (hlen : input.length < 2147483648) :
    ((List.range 256).map (countFrequencies input zeroFreq)).sum = input.length := by
  have h := countFrequencies_apply input zeroFreq hff (fun i => by
    simp only [zeroFreq]; omega)
  have : (List.range 256).map (countFrequencies input zeroFreq)
      = (List.range 256).map (fun i => (((input.map (fun b => b.val)).count i : Nat) : Int)) := by
    apply List.map_congr_left
    intro i _
    rw [h i]; simp [zeroFreq]
  rw [this, sum_count_range _ 256 (by
    intro x hx
    obtain ⟨b, _, rfl⟩ := List.mem_map.1 hx
    exact b.isLt)]
  simp

theorem encodeBit_count (s : EncState) (p : Char) (t : Nat)
    (h : s.bitCount < 8 ∧ 8 * s.outBin.length + s.bitCount = t) :
    (encodeBit s p).bitCount < 8 ∧
      8 * (encodeBit s p).outBin.length + (encodeBit s p).bitCount = t + 1 := by
  unfold encodeBit
  simp only []
  split
  · simp only [List.length_append, List.length_singleton]; omega
  · simp only []; omega

theorem foldl_encodeBit_count : ∀ (code : List Char) (s : EncState) (t : Nat),
    (s.bitCount < 8 ∧ 8 * s.outBin.length + s.bitCount = t) →
    (code.foldl encodeBit s).bitCount < 8 ∧
      8 * (code.foldl encodeBit s).outBin.length + (code.foldl encodeBit s).bitCount
        = t + code.length
  | [], s, t, h => by simpa using h
  | p :: code, s, t, h => by
    have := foldl_encodeBit_count code (encodeBit s p) (t + 1) (encodeBit_count s p t h)
    simp only [List.foldl_cons, List.length_cons]
    omega

theorem encodeLoop_count (codes : CodeTable) : ∀ (input : List Byte) (s : EncState) (t : Nat),
    (∀ b ∈ input, b.val ≠ 255) →
    (s.bitCount < 8 ∧ 8 * s.outBin.length + s.bitCount = t) →
    (encodeLoop codes input s).bitCount < 8 ∧
      8 * (encodeLoop codes input s).outBin.length + (encodeLoop codes input s).bitCount
        = t + codeLengthSum codes input
  | [], s, t, _, h => by simpa [encodeLoop, codeLengthSum] using h
  | b :: rest, s, t, hff, h => by
    have hne : toChar ((b.val : Nat) : Int) ≠ EOF := fun h =>
      hff b (List.mem_cons_self _ _) ((toChar_byte_eq_EOF b).1 h)
    simp only [encodeLoop, fgetc, ne_eq, hne, not_false_eq_true, if_true, toUChar_toChar_byte]
    have := encodeLoop_count codes rest _ _ (fun c hc => hff c (List.mem_cons_of_mem _ hc))
      (foldl_encodeBit_count (codes b.val) s t h)
    simp only [codeLengthSum, List.map_cons, List.sum_cons] at this ⊢
    omega

/-- On a file without the byte 0xFF, `encodeFile` writes as many bytes as the
code lengths of the input bytes sum to, in bits, rounded up to whole bytes. -/
theorem encodeFile_length (codes : CodeTable) (input : List Byte)
    (hff : ∀ b ∈ input, b.val ≠ 255) :
    (encodeFile input codes).1.length = (codeLengthSum codes input + 7) / 8 := by
  have := encodeLoop_count codes input
    { buffer := 0, bitCount := 0, outBin := [], outTxt := [] } 0 hff (by simp)
  unfold encodeFile
  simp only []
  split
  · simp only [List.length_append, List.length_singleton]; omega
  · simp only []; omega

theorem unpackByte_eq_toBits : ∀ v, v < 256 → unpackByte v = toBits 8 v := by
  decide!

theorem toBits_shift (w : Nat) (b : Nat) : ∀ k, toBits (w + k) (b * 2 ^ k)
    = toBits w b ++ List.replicate k '0'
  | 0 => by simp
  | k + 1 => by
    have h1 : b * 2 ^ (k + 1) / 2 = b * 2 ^ k := by
      rw [pow_succ, ← mul_assoc]; exact Nat.mul_div_cancel _ (by decide)
    have h2 : b * 2 ^ (k + 1) % 2 = 0 := by
      rw [pow_succ, ← mul_assoc]; exact Nat.mul_mod_left _ _
    rw [← Nat.add_assoc, toBits, h1, h2, toBits_shift w b k, List.replicate_succ',
      List.append_assoc]
    simp

theorem toBits_mod (w : Nat) : ∀ (v : Nat), toBits w (v % 2 ^ w) = toBits w v := by
  induction w with
  | zero => intro v; rfl
  | succ w ih =>
    intro v
    have h1 : v % 2 ^ (w + 1) / 2 = (v / 2) % 2 ^ w := by
      rw [pow_succ, Nat.mul_comm, Nat.mod_mul_right_div_self]
    have h2 : v % 2 ^ (w + 1) % 2 = v % 2 := by
      rw [pow_succ]; exact Nat.mod_mul_left_mod _ _ _
    rw [toBits, toBits, h1, h2, ih]

theorem lor_bit_zero : ∀ b : Nat, b < 128 →
    (Int.lor ((b : Int) * 2) ((('0' : Char).toNat : Int) - 48) % 256).toNat = 2 * b := by
  decide!

theorem lor_bit_one : ∀ b : Nat, b < 128 →
    (Int.lor ((b : Int) * 2) ((('1' : Char).toNat : Int) - 48) % 256).toNat = 2 * b + 1 := by
  decide!

theorem unpack_append (a b : List Nat) : unpack (a ++ b) = unpack a ++ unpack b := by
  simp [unpack]

theorem unpack_singleton (v : Nat) (h : v < 256) : unpack [v] = toBits 8 v := by
  simp [unpack, unpackByte_eq_toBits v h]

theorem encodeBit_packed (s : EncState) (p : Char) (hp : p = '0' ∨ p = '1') (h : s.Packed) :
    (encodeBit s p).Packed ∧ (encodeBit s p).outTxt = s.outTxt ++ [p] := by
  obtain ⟨h1, h2, h3⟩ := h
  have hb : s.buffer < 128 := by
    have : 2 ^ s.bitCount ≤ 2 ^ 7 := Nat.pow_le_pow_right (by decide) (by omega)
    omega
  have hbuf : (Int.lor ((s.buffer : Int) * 2) ((p.toNat : Int) - 48) % 256).toNat
      = 2 * s.buffer + (if p = '1' then 1 else 0) := by
    rcases hp with rfl | rfl
    · rw [lor_bit_zero _ hb]; simp
    · rw [lor_bit_one _ hb]; simp
  have hbits : toBits (s.bitCount + 1) (2 * s.buffer + (if p = '1' then 1 else 0))
      = toBits s.bitCount s.buffer ++ [p] := by
    rw [toBits]
    rcases hp with rfl | rfl
    · have e1 : (2 * s.buffer + (if ('0' : Char) = '1' then 1 else 0)) / 2 = s.buffer := by
        simp
      have e2 : (2 * s.buffer + (if ('0' : Char) = '1' then 1 else 0)) % 2 = 0 := by
        simp
      rw [e1, e2]; simp
    · have e1 : (2 * s.buffer + (if ('1' : Char) = '1' then 1 else 0)) / 2 = s.buffer := by
        simp; omega
      have e2 : (2 * s.buffer + (if ('1' : Char) = '1' then 1 else 0)) % 2 = 1 := by
        simp; omega
      rw [e1, e2]; simp
  have hlt : 2 * s.buffer + (if p = '1' then 1 else 0) < 2 ^ (s.bitCount + 1) := by
    rw [pow_succ]
    split <;> omega
  unfold encodeBit
  simp only [hbuf]
  split
  · rename_i h8
    refine ⟨⟨by simp, by simp, ?_⟩, rfl⟩
    simp only [toBits, List.append_nil]
    rw [unpack_append, unpack_singleton _ (by
      have : 2 ^ (s.bitCount + 1) = 256 := by rw [h8]; rfl
      omega), ← h8, hbits, ← List.append_assoc, h3]
  · rename_i h8
    refine ⟨⟨by simp only []; omega, hlt, ?_⟩, rfl⟩
    simp only []
    rw [hbits, ← List.append_assoc, h3]

theorem foldl_encodeBit_packed : ∀ (code : List Char) (s : EncState),
    (∀ c ∈ code, c = '0' ∨ c = '1') → s.Packed →
    (code.foldl encodeBit s).Packed ∧ (code.foldl encodeBit s).outTxt = s.outTxt ++ code
  | [], s, _, h => by simpa using h
  | p :: code, s, hc, h => by
    obtain ⟨h1, h2⟩ := encodeBit_packed s p (hc p (List.mem_cons_self _ _)) h
    obtain ⟨h3, h4⟩ := foldl_encodeBit_packed code (encodeBit s p)
      (fun c hcc => hc c (List.mem_cons_of_mem _ hcc)) h1
    simp only [List.foldl_cons]
    exact ⟨h3, by rw [h4, h2]; simp⟩

theorem encodeLoop_packed (codes : CodeTable) : ∀ (input : List Byte) (s : EncState),
    (∀ b ∈ input, b.val ≠ 255) → (∀ b ∈ input, ∀ c ∈ codes b.val, c = '0' ∨ c = '1') →
    s.Packed →
    (encodeLoop codes input s).Packed ∧
      (encodeLoop codes input s).outTxt = s.outTxt ++ codeText codes input
  | [], s, _, _, h => by simpa [encodeLoop, codeText] using h
  | b :: rest, s, hff, hc, h => by
    have hne : toChar ((b.val : Nat) : Int) ≠ EOF := fun h =>
      hff b (List.mem_cons_self _ _) ((toChar_byte_eq_EOF b).1 h)
    simp only [encodeLoop, fgetc, ne_eq, hne, not_false_eq_true, if_true, toUChar_toChar_byte]
    obtain ⟨h1, h2⟩ := foldl_encodeBit_packed (codes b.val) s (hc b (List.mem_cons_self _ _)) h
    obtain ⟨h3, h4⟩ := encodeLoop_packed codes rest _
      (fun c hcc => hff c (List.mem_cons_of_mem _ hcc))
      (fun c hcc => hc c (List.mem_cons_of_mem _ hcc)) h1
    refine ⟨h3, ?_⟩
    rw [h4, h2]
    simp [codeText]

/-- On a file without the byte 0xFF and a table of `'0'`/`'1'` strings, the
text output of `encodeFile` is the concatenation of the codes of the input
bytes, and the bits of the binary output are that text followed by fewer than
8 zero bits. -/
theorem encodeFile_outputs (codes : CodeTable) (input : List Byte)
    (hff : ∀ b ∈ input, b.val ≠ 255) (hc : ∀ b ∈ input, ∀ c ∈ codes b.val, c = '0' ∨ c = '1') :
    (encodeFile input codes).2 = codeText codes input ∧
    ∃ pad, pad < 8 ∧
      unpack (encodeFile input codes).1 = codeText codes input ++ List.replicate pad '0' := by
  obtain ⟨⟨h1, h2, h3⟩, h4⟩ := encodeLoop_packed codes input
    { buffer := 0, bitCount := 0, outBin := [], outTxt := [] } hff hc
    ⟨by decide, by decide, rfl⟩
  simp only [List.nil_append] at h4
  unfold encodeFile
  simp only []
  generalize encodeLoop codes input
    { buffer := 0, bitCount := 0, outBin := [], outTxt := [] } = s at h1 h2 h3 h4 ⊢
  split
  · rename_i hpos
    refine ⟨h4, 8 - s.bitCount, by omega, ?_⟩
    rw [unpack_append, unpack_singleton _ (Nat.mod_lt _ (by decide))]
    have e8 : (256 : Nat) = 2 ^ 8 := rfl
    rw [e8, toBits_mod]
    have := toBits_shift s.bitCount s.buffer (8 - s.bitCount)
    rw [Nat.add_sub_cancel' (by omega)] at this
    rw [this, ← List.append_assoc, h3, h4]
  · rename_i hpos
    refine ⟨h4, 0, by decide, ?_⟩
    have h0 : s.bitCount = 0 := by omega
    rw [h0] at h3
    simp only [toBits, List.append_nil] at h3
    simp only [List.replicate_zero, List.append_nil]
    rw [h3, h4]

theorem findSome_unique {α β : Type} (f : α → Option β) (a : α) (v : β) :
    ∀ l : List α, a ∈ l → f a = some v → (∀ x ∈ l, (f x).isSome → x = a) →
    l.findSome? f = some v
  | [], h, _, _ => by simp at h
  | x :: t, h, hv, hu => by
    rw [List.findSome?_cons]
    cases hx : f x with
    | some w =>
      have := hu x (List.mem_cons_self _ _) (by rw [hx]; rfl)
      subst this
      rw [hx] at hv
      simp only [hv]
    | none =>
      have hax : a ≠ x := by
        intro e; subst e; rw [hx] at hv; cases hv
      simp only []
      exact findSome_unique f a v t ((List.mem_cons.1 h).resolve_left hax) hv
        (fun y hy => hu y (List.mem_cons_of_mem _ hy))

theorem decodeOne_append (codes : CodeTable) (b : Nat) (hb : b < 256) (hne : codes b ≠ [])
    (hpf : ∀ x, x < 256 → codes x ≠ [] → x ≠ b →
      ¬ codes x <+: codes b ∧ ¬ codes b <+: codes x) (rest : List Char) :
    decodeOne codes (codes b ++ rest) = some (b, rest) := by
  unfold decodeOne
  apply findSome_unique _ b _ _ (List.mem_range.2 hb)
  · rw [if_pos ⟨hne, List.prefix_append _ _⟩, List.drop_left]
  · intro x hx hsome
    by_contra hxb
    have hx' := List.mem_range.1 hx
    by_cases hc : codes x ≠ [] ∧ codes x <+: codes b ++ rest
    · obtain ⟨h1, h2⟩ := hpf x hx' hc.1 hxb
      rcases List.prefix_or_prefix_of_prefix hc.2 (List.prefix_append (codes b) rest) with h | h
      · exact h1 h
      · exact h2 h
    · rw [if_neg hc] at hsome
      cases hsome

theorem codeText_cons (codes : CodeTable) (b : Byte) (rest : List Byte) :
    codeText codes (b :: rest) = codes b.val ++ codeText codes rest := by
  simp [codeText]

theorem codeText_length (codes : CodeTable) (input : List Byte) :
    (codeText codes input).length = codeLengthSum codes input := by
  induction input with
  | nil => rfl
  | cons b rest ih =>
    rw [codeText_cons, List.length_append, ih]
    simp [codeLengthSum]

/-- The reference decoder inverts the concatenation of the codes when the codes
of the input bytes are non-empty and prefix-free among the non-empty codes. -/
theorem decode_codeText (codes : CodeTable)
    (hpf : ∀ b, b < 256 → codes b ≠ [] → ∀ x, x < 256 → codes x ≠ [] → x ≠ b →
      ¬ codes x <+: codes b ∧ ¬ codes b <+: codes x) :
    ∀ (input : List Byte) (fuel : Nat), (∀ b ∈ input, codes b.val ≠ []) →
      (codeText codes input).length ≤ fuel →
      decode codes fuel (codeText codes input) = input.map (fun b => b.val)
  | [], fuel, _, _ => by
    cases fuel <;> simp [codeText, decode]
  | b :: rest, fuel, hne, hf => by
    have hb := hne b (List.mem_cons_self _ _)
    have h1 := decodeOne_append codes b.val b.isLt hb (hpf b.val b.isLt hb) (codeText codes rest)
    rw [codeText_cons] at hf ⊢
    obtain ⟨c, cs, hcs⟩ := List.exists_cons_of_ne_nil hb
    rw [hcs] at hf h1 ⊢
    cases fuel with
    | zero => simp at hf
    | succ fuel =>
      simp only [List.cons_append] at h1 hf ⊢
      rw [decode, h1]
      simp only [List.map_cons]
      rw [decode_codeText codes hpf rest fuel (fun x hx => hne x (List.mem_cons_of_mem _ hx)) (by
        simp only [List.length_cons, List.length_append] at hf
        omega)]

theorem pathTo_chars (b : Nat) (t : MinHeapNode) : ∀ c ∈ pathTo b t, c = '0' ∨ c = '1' := by
  induction t with
  | null => intro c hc; simp [pathTo] at hc
  | mk d f l r ihl ihr =>
    intro c hc
    unfold pathTo at hc
    split at hc
    · simp at hc
    · split at hc
      · rcases List.mem_cons.1 hc with rfl | h
        · exact Or.inl rfl
        · exact ihl c h
      · rcases List.mem_cons.1 hc with rfl | h
        · exact Or.inr rfl
        · exact ihr c h

theorem two_le_length_of_mem {l : List Nat} {a b : Nat} (ha : a ∈ l) (hb : b ∈ l)
    (hab : a ≠ b) : 2 ≤ l.length := by
  match l, ha, hb with
  | [], ha, _ => simp at ha
  | [x], ha, hb =>
    simp only [List.mem_singleton] at ha hb
    exact absurd (ha.trans hb.symm) hab
  | _ :: _ :: _, _, _ => simp

/-- Round trip on files the program reads to the end: for a file without the
byte 0xFF, shorter than 2^31 bytes and with at least two distinct byte values,
whose tree is less than `MAX_TREE_HT` levels deep, `generateCodes` returns a
table with which decoding the first `N` bits of the binary output gives back
the file, and the bits after them are fewer than 8 zero bits. -/
theorem round_trip_without_ff (input : List Byte) (hff : ∀ b ∈ input, b.val ≠ 255)
    (hlen : input.length < 2147483648) (h2 : ∃ a ∈ input, ∃ b ∈ input, a ≠ b) :
    ∃ root, buildHuffmanTree (countFrequencies input zeroFreq) = .ok root ∧
      (root.height < MAX_TREE_HT →
        ∃ codes, generateCodes root [] 0 emptyCodes = .ok codes ∧
          decode codes (codeLengthSum codes input)
              ((unpack (encodeFile input codes).1).take (codeLengthSum codes input))
            = input.map (fun b => b.val) ∧
          ∃ pad, pad < 8 ∧
            (unpack (encodeFile input codes).1).drop (codeLengthSum codes input)
              = List.replicate pad '0') := by
  have hfreq := countFrequencies_apply input zeroFreq hff (fun i => by
    simp only [zeroFreq]; omega)
  have hpres : ∀ b ∈ input, b.val ∈ presentBytes (countFrequencies input zeroFreq) := by
    intro b hb
    rw [mem_presentBytes, hfreq]
    refine ⟨b.isLt, ?_⟩
    have : 0 < (input.map (fun b => b.val)).count b.val :=
      List.count_pos_iff.2 (List.mem_map.2 ⟨b, hb, rfl⟩)
    simp only [zeroFreq]
    omega
  obtain ⟨a, ha, b, hb, hab⟩ := h2
  have hn : 2 ≤ (presentBytes (countFrequencies input zeroFreq)).length :=
    two_le_length_of_mem (hpres a ha) (hpres b hb) (fun h => hab (Fin.ext h))
  obtain ⟨root, e, hP, hL, hN, _, hg⟩ := generateCodes_of_build
    (countFrequencies input zeroFreq) (by omega) []
  refine ⟨root, e, fun hh => ?_⟩
  obtain ⟨codes, eg, hc⟩ := hg hh
  refine ⟨codes, eg, ?_⟩
  have hleaves : 2 ≤ (leafBytes root).length := by rw [hL.length_eq]; exact hn
  have hmem : ∀ x, codes x ≠ [] → x ∈ presentBytes (countFrequencies input zeroFreq) := by
    intro x hx
    by_contra hnot
    exact hx (by rw [hc x, if_neg hnot])
  have hne : ∀ b ∈ input, codes b.val ≠ [] := by
    intro b hb
    rw [hc, if_pos (hpres b hb)]
    intro h0
    have := pathTo_ne_nil root hP hleaves b.val
    rw [h0] at this
    simp at this
  have hchars : ∀ b ∈ input, ∀ c ∈ codes b.val, c = '0' ∨ c = '1' := by
    intro b hb c hcc
    rw [hc, if_pos (hpres b hb)] at hcc
    exact pathTo_chars _ _ c hcc
  have hpf : ∀ b, b < 256 → codes b ≠ [] → ∀ x, x < 256 → codes x ≠ [] → x ≠ b →
      ¬ codes x <+: codes b ∧ ¬ codes b <+: codes x := by
    intro b _ hb0 x _ hx0 hxb
    have mb := hmem b hb0
    have mx := hmem x hx0
    rw [hc b, hc x, if_pos mb, if_pos mx]
    exact ⟨pathTo_incomparable root hP hN x b (hL.mem_iff.2 mx) (hL.mem_iff.2 mb) hxb,
      pathTo_incomparable root hP hN b x (hL.mem_iff.2 mb) (hL.mem_iff.2 mx) (Ne.symm hxb)⟩
  obtain ⟨_, pad, hpad, hbits⟩ := encodeFile_outputs codes input hff hchars
  have hlenT := codeText_length codes input
  rw [hbits, ← hlenT]
  refine ⟨?_, pad, hpad, ?_⟩
  · rw [List.take_left]
    exact decode_codeText codes hpf input _ hne (Nat.le_refl _)
  · rw [List.drop_left]

/-! ## The claims -/

/-- C1, at the failing table `freqDepth100` (101 non-zero entries, all within
the `int` range): `buildHuffmanTree` returns a tree of height 100 in which the
leaf of byte 0 is 100 branches below the root, and `generateCodes`, whatever
the scratch buffer holds, writes outside the 100-character buffer `code`, so no
prefix-free table is produced. -/
theorem deep_table_no_prefix_free_codes :
    (∀ i, i < 256 → 0 ≤ freqDepth100 i ∧ freqDepth100 i < 2147483648) ∧
    2 ≤ nonZeroCount freqDepth100 ∧
    ∃ root, buildHuffmanTree freqDepth100 = .ok root ∧
      root.height = 100 ∧ (pathTo 0 root).length = 100 ∧
      ∀ code, generateCodes root code 0 emptyCodes = .error .undefined := by
  refine ⟨by decide!, by decide!, ?_⟩
  have h : (buildHuffmanTree freqDepth100).map
      (fun root => (root.height, (pathTo 0 root).length)) = .ok (100, 100) := by decide!
  cases e : buildHuffmanTree freqDepth100 with
  | error x => rw [e] at h; cases h
  | ok root =>
    rw [e] at h
    have h2 : (root.height, (pathTo 0 root).length) = (100, 100) := by
      simpa [Except.map] using h
    have hh : root.height = 100 := congrArg Prod.fst h2
    exact ⟨root, rfl, hh, congrArg Prod.snd h2, fun code =>
      generateCodes_out_of_bounds root code 0 emptyCodes (by rw [hh]; decide)⟩

/-- C7, at the failing table `freqDeep` (102 non-zero entries): the tree that
`buildHuffmanTree` returns has height 101, which is within the bound `n - 1`,
but `generateCodes`, whatever the scratch buffer holds, writes outside the
100-character buffer `code`, so the bytes do not receive codes of length at
most `n - 1`. -/
theorem deep_table_codes_not_bounded :
    (∀ i, i < 256 → 0 ≤ freqDeep i) ∧
    nonZeroCount freqDeep = 102 ∧
    ∃ root, buildHuffmanTree freqDeep = .ok root ∧
      root.height = 101 ∧ root.height ≤ nonZeroCount freqDeep - 1 ∧
      ∀ code, generateCodes root code 0 emptyCodes = .error .undefined := by
  refine ⟨by decide!, by decide!, ?_⟩
  have h := height_of_deep_tables.2
  cases e : buildHuffmanTree freqDeep with
  | error x => rw [e] at h; cases h
  | ok root =>
    rw [e] at h
    have hh : root.height = 101 := by simpa [Except.map] using h
    have hn : nonZeroCount freqDeep = 102 := by decide!
    exact ⟨root, rfl, hh, by rw [hh, hn], fun code =>
      generateCodes_out_of_bounds root code 0 emptyCodes (by rw [hh]; decide)⟩

/-- C6, as stated, fails on the input "aaaa": the table has one non-zero entry,
the tree is the single leaf for byte 97, and `generateCodes` returns a table
with the empty string for it, so it is not the case that every present byte
has a code of length at least 1. -/
theorem single_byte_code_not_nonempty :
    1 ≤ nonZeroCount (countFrequencies inputAaaa zeroFreq) ∧
    countFrequencies inputAaaa zeroFreq 97 ≠ 0 ∧
    buildHuffmanTree (countFrequencies inputAaaa zeroFreq) = .ok (newNode 97 4) ∧
    (∃ codes, generateCodes (newNode 97 4) [] 0 emptyCodes = .ok codes ∧ codes 97 = []) ∧
    ¬ ∃ root codes, buildHuffmanTree (countFrequencies inputAaaa zeroFreq) = .ok root ∧
      generateCodes root [] 0 emptyCodes = .ok codes ∧
      ∀ b, b < 256 → countFrequencies inputAaaa zeroFreq b ≠ 0 → 1 ≤ (codes b).length := by
  have e' : buildHuffmanTree (countFrequencies inputAaaa zeroFreq) = .ok (newNode 97 4) := by
    decide!
  have eg : generateCodes (newNode 97 4) [] 0 emptyCodes
      = .ok (storeCodes (newNode 97 4) [] 0 emptyCodes) :=
    generateCodes_eq_storeCodes _ _ _ _ (by decide) (by decide)
  refine ⟨by decide!, by decide!, e', ⟨_, eg, by decide!⟩, ?_⟩
  rintro ⟨root, codes, e, g, h⟩
  rw [e'] at e
  cases e
  rw [eg] at g
  cases g
  exact absurd (h 97 (by decide) (by decide!)) (by decide!)

/-- C6, amended. For a frequency table (non-negative counts) with at least one
non-zero entry `buildHuffmanTree` returns a tree of height at most the number
of non-zero entries minus 1. If the table has at least two non-zero entries and
the tree is less than `MAX_TREE_HT` levels deep, `generateCodes` returns a
table in which every byte with non-zero frequency has a code of length at least
1; if the table has exactly one non-zero entry, the tree is a single leaf and
`generateCodes` returns a table in which that byte has the empty string. -/
theorem code_length_ge_one_of_two_present (freq : FreqTable)
    (hnn : ∀ i, i < 256 → 0 ≤ freq i) (h1 : 1 ≤ nonZeroCount freq) (code : List Char) :
    ∃ root, buildHuffmanTree freq = .ok root ∧ root.height ≤ nonZeroCount freq - 1 ∧
      (2 ≤ nonZeroCount freq → root.height < MAX_TREE_HT →
        ∃ codes, generateCodes root code 0 emptyCodes = .ok codes ∧
          ∀ b, b < 256 → freq b ≠ 0 → 1 ≤ (codes b).length) ∧
      (nonZeroCount freq = 1 → root.left = .null ∧ root.right = .null ∧
        ∃ codes, generateCodes root code 0 emptyCodes = .ok codes ∧
          ∀ b, b < 256 → freq b ≠ 0 → codes b = []) := by
  rw [nonZeroCount_eq freq hnn] at h1 ⊢
  obtain ⟨root, e, hP, hL, _, hht, hg⟩ := generateCodes_of_build freq h1 code
  have hlen := hL.length_eq
  refine ⟨root, e, by omega, fun h2 hh => ?_, fun h2 => ⟨?_, ?_, ?_⟩⟩
  · obtain ⟨codes, eg, hc⟩ := hg hh
    refine ⟨codes, eg, fun b hb hfb => ?_⟩
    rw [hc b, if_pos (mem_presentBytes_of_ne freq hnn b hb hfb)]
    exact pathTo_ne_nil root hP (by omega) b
  · exact (single_leaf_of_one root hP (by omega)).1
  · exact (single_leaf_of_one root hP (by omega)).2
  · obtain ⟨codes, eg, hc⟩ := hg (by unfold MAX_TREE_HT; omega)
    refine ⟨codes, eg, fun b hb hfb => ?_⟩
    rw [hc b, if_pos (mem_presentBytes_of_ne freq hnn b hb hfb)]
    have := pathTo_length root hP b
    exact List.length_eq_zero.1 (by omega)

/-- Instance of `code_length_ge_one_of_two_present` on the table counted from
"aaaaabc", which has three non-zero entries and a tree of height 2. -/
theorem code_length_ge_one_of_two_present_witness :
    (∀ i, i < 256 → 0 ≤ countFrequencies inputAaaaabc zeroFreq i) ∧
    1 ≤ nonZeroCount (countFrequencies inputAaaaabc zeroFreq) ∧
    2 ≤ nonZeroCount (countFrequencies inputAaaaabc zeroFreq) ∧
    (buildHuffmanTree (countFrequencies inputAaaaabc zeroFreq)).map MinHeapNode.height
      = .ok 2 ∧
    ∃ root, buildHuffmanTree (countFrequencies inputAaaaabc zeroFreq) = .ok root ∧
      root.height ≤ nonZeroCount (countFrequencies inputAaaaabc zeroFreq) - 1 ∧
      (2 ≤ nonZeroCount (countFrequencies inputAaaaabc zeroFreq) →
        root.height < MAX_TREE_HT →
        ∃ codes, generateCodes root [] 0 emptyCodes = .ok codes ∧
          ∀ b, b < 256 → countFrequencies inputAaaaabc zeroFreq b ≠ 0 →
            1 ≤ (codes b).length) ∧
      (nonZeroCount (countFrequencies inputAaaaabc zeroFreq) = 1 →
        root.left = .null ∧ root.right = .null ∧
        ∃ codes, generateCodes root [] 0 emptyCodes = .ok codes ∧
          ∀ b, b < 256 → countFrequencies inputAaaaabc zeroFreq b ≠ 0 → codes b = []) :=
  ⟨by decide!, by decide!, by decide!, by decide!,
    code_length_ge_one_of_two_present (countFrequencies inputAaaaabc zeroFreq) (by decide!)
      (by decide!) []⟩

/-- C9. On the input "aaab" the pipeline computes the frequencies a:3, b:1 (all
other entries 0), builds the two-leaf tree with leaf `a` on the left and leaf
`b` on the right, `generateCodes` (whatever the scratch buffer holds) returns
the table with the codes a -> "0", b -> "1" (all other rows empty), and
`encodeFile` writes the text "0001" and exactly one byte, 0x10 = 16, whose
bits are 0001 followed by four zero bits. -/
theorem aaab_scenario :
    (∀ i, i < 256 →
      countFrequencies inputAaab zeroFreq i = if i = 97 then 3 else if i = 98 then 1 else 0) ∧
    buildHuffmanTree (countFrequencies inputAaab zeroFreq)
      = .ok (.mk 36 4 (newNode 97 3) (newNode 98 1)) ∧
    (∃ codes, (∀ code : List Char,
        generateCodes (.mk 36 4 (newNode 97 3) (newNode 98 1)) code 0 emptyCodes = .ok codes) ∧
      (∀ i, i < 256 → codes i = if i = 97 then ['0'] else if i = 98 then ['1'] else []) ∧
      encodeFile inputAaab codes = ([16], ['0', '0', '0', '1'])) ∧
    unpack [16] = ['0', '0', '0', '1', '0', '0', '0', '0'] := by
  refine ⟨by decide!, by decide!,
    ⟨storeCodes (.mk 36 4 (newNode 97 3) (newNode 98 1)) [] 0 emptyCodes, fun code => ?_,
      by decide!, by decide!⟩, by decide!⟩
  rw [generateCodes_top_zero]
  exact generateCodes_eq_storeCodes _ [] 0 emptyCodes (by decide) (by decide)

/-- C2, at the failing input "aaaaabc" (a:5, b:1, c:1). For the tree returned by
`buildHuffmanTree`, `generateCodes` returns the table with the codes a -> "10",
b -> "0", c -> "11" of weighted length 13, while the prefix-free assignment
a -> "0", b -> "10", c -> "11" has weighted length 9: the generated code is not
optimal. -/
theorem aaaaabc_codes_not_optimal :
    2 ≤ nonZeroCount (countFrequencies inputAaaaabc zeroFreq) ∧
    ∃ root codes, buildHuffmanTree (countFrequencies inputAaaaabc zeroFreq) = .ok root ∧
      generateCodes root [] 0 emptyCodes = .ok codes ∧
      codes 97 = ['1', '0'] ∧
      codes 98 = ['0'] ∧
      codes 99 = ['1', '1'] ∧
      weightedLength (countFrequencies inputAaaaabc zeroFreq) codes = 13 ∧
      prefixFreeOn (countFrequencies inputAaaaabc zeroFreq) altCodes ∧
      weightedLength (countFrequencies inputAaaaabc zeroFreq) altCodes = 9 :=
  ⟨by decide!, .mk 36 7 (newNode 98 1) (.mk 36 6 (newNode 97 5) (newNode 99 1)),
    storeCodes (.mk 36 7 (newNode 98 1) (.mk 36 6 (newNode 97 5) (newNode 99 1))) [] 0
      emptyCodes,
    by decide!, generateCodes_eq_storeCodes _ _ _ _ (by decide) (by decide),
    by decide!, by decide!, by decide!, by decide!, by decide!, by decide!⟩

/-- C3, at the failing input 'a', 'b', 0xFF. `generateCodes` returns the table
with the codes a -> "0", b -> "1", the sum `N` of the code lengths of the input
bytes is 2, `encodeFile` writes the single byte 0x40, and decoding its first 2
bits gives the two bytes 'a', 'b', not the three bytes of the input. -/
theorem round_trip_loses_bytes_from_ff :
    2 ≤ nonZeroCount (countFrequencies inputAbFF zeroFreq) ∧
    ∃ root codes, buildHuffmanTree (countFrequencies inputAbFF zeroFreq) = .ok root ∧
      generateCodes root [] 0 emptyCodes = .ok codes ∧
      codeLengthSum codes inputAbFF = 2 ∧
      (encodeFile inputAbFF codes).1 = [64] ∧
      decode codes 2 ((unpack (encodeFile inputAbFF codes).1).take 2) = [97, 98] ∧
      inputAbFF.map (fun b => b.val) = [97, 98, 255] :=
  ⟨by decide!, .mk 36 2 (newNode 97 1) (newNode 98 1),
    storeCodes (.mk 36 2 (newNode 97 1) (newNode 98 1)) [] 0 emptyCodes,
    by decide!, generateCodes_eq_storeCodes _ _ _ _ (by decide) (by decide),
    by decide!, by decide!, by decide!, by decide!⟩

/-- C4, at the failing input of the single byte 0xFF: `countFrequencies` leaves
the table all zero, so its entries sum to 0 while the input has 1 byte. -/
theorem count_sum_misses_ff :
    ((List.range 256).map (countFrequencies [255] zeroFreq)).sum = 0 ∧
    ([255] : List Byte).length = 1 := by
  decide!

/-- C5, at the failing input "ab", 0xFF, "abababa" with the code table the
program generates for it (a -> "0", b -> "1", other rows empty): the code
lengths of the ten input bytes sum to 9, so 2 bytes are due, and `encodeFile`
writes 1 byte. -/
theorem encoded_size_short_after_ff :
    ∃ root codes, buildHuffmanTree (countFrequencies inputAbFFLong zeroFreq) = .ok root ∧
      generateCodes root [] 0 emptyCodes = .ok codes ∧
      (∀ b, b < 256 → ∀ c ∈ codes b, c = '0' ∨ c = '1') ∧
      codeLengthSum codes inputAbFFLong = 9 ∧
      (encodeFile inputAbFFLong codes).1.length = 1 :=
  ⟨.mk 36 2 (newNode 97 1) (newNode 98 1),
    storeCodes (.mk 36 2 (newNode 97 1) (newNode 98 1)) [] 0 emptyCodes,
    by decide!, generateCodes_eq_storeCodes _ _ _ _ (by decide) (by decide),
    by decide!, by decide!, by decide!⟩

/-- C8, at the failing table `freqDeep` (entries 0, 1 and 102, so within the
`int` range): in the tree that `buildHuffmanTree` returns, the leaf of byte 0
is 101 branches below the root, so the code that the writes of `generateCodes`
spell for byte 0 has length 101, more than `MAX_TREE_HT - 1 = 99`, and
`generateCodes`, whatever the scratch buffer holds, writes outside the
100-character buffer `code`. -/
theorem deep_table_code_exceeds_buffer :
    (∀ i, i < 256 → 0 ≤ freqDeep i ∧ freqDeep i < 2147483648) ∧
    1 ≤ nonZeroCount freqDeep ∧ MAX_TREE_HT - 1 = 99 ∧
    ∃ root, buildHuffmanTree freqDeep = .ok root ∧
      0 ∈ leafBytes root ∧ (pathTo 0 root).length = 101 ∧
      (storeCodes root [] 0 emptyCodes 0).length = 101 ∧
      (∀ code, generateCodes root code 0 emptyCodes = .error .undefined) ∧
      mainCodes freqDeep = .error .undefined := by
  refine ⟨by decide!, by decide!, by decide!, ?_⟩
  have h : (buildHuffmanTree freqDeep).map (fun root =>
      (decide (0 ∈ leafBytes root), (pathTo 0 root).length,
        (storeCodes root [] 0 emptyCodes 0).length, root.height))
      = .ok (true, 101, 101, 101) := by decide!
  cases e : buildHuffmanTree freqDeep with
  | error x => rw [e] at h; cases h
  | ok root =>
    rw [e] at h
    have h2 : (decide (0 ∈ leafBytes root), (pathTo 0 root).length,
        (storeCodes root [] 0 emptyCodes 0).length, root.height) = (true, 101, 101, 101) := by
      simpa [Except.map] using h
    have hh : root.height = 101 := congrArg (fun p => p.2.2.2) h2
    have hout : ∀ code, generateCodes root code 0 emptyCodes = .error .undefined :=
      fun code => generateCodes_out_of_bounds root code 0 emptyCodes (by rw [hh]; decide)
    refine ⟨root, rfl, of_decide_eq_true (congrArg (fun p => p.1) h2),
      congrArg (fun p => p.2.1) h2, congrArg (fun p => p.2.2.1) h2, hout, ?_⟩
    unfold mainCodes
    rw [e]
    exact hout []

/-- C10, at the failing input "aaab" (a:3, b:1): after the first loop of
`buildHuffmanTree` the queue holds the leaf of weight 3 in slot 0 and the leaf
of weight 1 in slot 1, which violates the min-heap property at index 1. -/
theorem initial_fill_not_min_heap :
    1 ≤ nonZeroCount (countFrequencies inputAaab zeroFreq) ∧
    (fillLeaves (countFrequencies inputAaab zeroFreq)).size = 2 ∧
    ((fillLeaves (countFrequencies inputAaab zeroFreq)).slot 0).freq = 3 ∧
    ((fillLeaves (countFrequencies inputAaab zeroFreq)).slot 1).freq = 1 ∧
    ¬ isMinHeap (fillLeaves (countFrequencies inputAaab zeroFreq)) := by
  decide!

/-! ## The queue as a min-heap -/

theorem getD_swap (arr : List MinHeapNode) (a b j : Nat) (ha : a < arr.length)
    (hb : b < arr.length) :
    (swapMinHeapNode arr a b).getD j .null
      = if j = b then arr.getD a .null else if j = a then arr.getD b .null
        else arr.getD j .null := by
  unfold swapMinHeapNode
  simp only []
  by_cases hjb : j = b
  · subst hjb
    rw [if_pos rfl, getD_set_self _ _ _ _ (by simpa using hb)]
  · rw [if_neg hjb, getD_set_ne _ _ _ _ _ (Ne.symm hjb)]
    by_cases hja : j = a
    · subst hja
      rw [if_pos rfl, getD_set_self _ _ _ _ ha]
    · rw [if_neg hja, getD_set_ne _ _ _ _ _ (Ne.symm hja)]

theorem pickSmallest_eq (h : MinHeap) (k : Nat) (hs : pickSmallest h k = k) :
    ∀ c, c = 2 * k + 1 ∨ c = 2 * k + 2 → c < h.size →
      (h.slot k).freq ≤ (h.slot c).freq := by
  unfold pickSmallest at hs
  simp only [] at hs
  intro c hc hlt
  rcases hc with rfl | rfl <;> split_ifs at hs <;> omega

theorem pickSmallest_ne (h : MinHeap) (k : Nat) (hs : pickSmallest h k ≠ k) :
    (pickSmallest h k = 2 * k + 1 ∨ pickSmallest h k = 2 * k + 2) ∧
    pickSmallest h k < h.size ∧
    (h.slot (pickSmallest h k)).freq < (h.slot k).freq ∧
    ∀ c, c = 2 * k + 1 ∨ c = 2 * k + 2 → c < h.size →
      (h.slot (pickSmallest h k)).freq ≤ (h.slot c).freq := by
  unfold pickSmallest at hs ⊢
  simp only [] at hs ⊢
  split_ifs at hs ⊢ with h1 h2 h3
  · refine ⟨Or.inr rfl, h2.1, by omega, ?_⟩
    rintro c (rfl | rfl) hc <;> omega
  · refine ⟨Or.inl rfl, h1.1, h1.2, ?_⟩
    rintro c (rfl | rfl) hc <;> omega
  · refine ⟨Or.inr rfl, h3.1, h3.2, ?_⟩
    rintro c (rfl | rfl) hc <;> omega
  · exact absurd rfl hs

theorem minHeapifyAux_heap : ∀ (fuel : Nat) (h : MinHeap) (k : Nat),
    h.size ≤ h.array.length → h.size - k < fuel → HeapExcept h k →
    ∃ h', minHeapifyAux fuel h k = .ok h' ∧ isMinHeap h'
  | 0, _, _, _, hf, _ => by omega
  | fuel + 1, h, k, hlen, hf, hE => by
    rw [minHeapifyAux_succ]
    by_cases hs : pickSmallest h k = k
    · rw [if_neg (by simpa using hs)]
      refine ⟨h, rfl, fun i hi hpos => ?_⟩
      by_cases hp : (i - 1) / 2 = k
      · rw [hp]
        exact pickSmallest_eq h k hs i (by omega) hi
      · exact hE.1 i hi hpos hp
    · rw [if_pos hs]
      obtain ⟨hc, hlt, hless, hmin⟩ := pickSmallest_ne h k hs
      generalize pickSmallest h k = s at hc hlt hless hmin hs
      have hk : k < h.size := by omega
      have key : ∀ j, ({ h with array := swapMinHeapNode h.array s k } : MinHeap).slot j
          = if j = k then h.slot s else if j = s then h.slot k else h.slot j := by
        intro j
        exact getD_swap h.array s k j (by omega) (by omega)
      apply minHeapifyAux_heap fuel _ s (by simpa [swapMinHeapNode] using hlen)
        (by simp only []; omega)
      constructor
      · intro i hi hpos hp
        simp only [] at hi
        rw [key i, key ((i - 1) / 2)]
        by_cases hik : i = k
        · subst hik
          rw [if_pos rfl, if_neg (by omega), if_neg hp]
          have := hE.2 s hlt (by omega) (by omega) hpos
          exact this
        · rw [if_neg hik]
          by_cases his : i = s
          · subst his
            rw [if_pos rfl, if_pos (by omega)]
            exact Nat.le_of_lt hless
          · rw [if_neg his]
            by_cases hpk : (i - 1) / 2 = k
            · rw [if_pos hpk]
              exact hmin i (by omega) hi
            · rw [if_neg hpk, if_neg hp]
              exact hE.1 i hi hpos hpk
      · intro i hi hpos hp hspos
        simp only [] at hi
        have hsk : (s - 1) / 2 = k := by omega
        rw [key i, key ((s - 1) / 2), if_pos hsk, if_neg (by omega), if_neg (by omega)]
        have := hE.1 i hi hpos (by omega)
        rw [hp] at this
        exact this

theorem root_le_all (h : MinHeap) (hh : isMinHeap h) :
    ∀ i, i < h.size → (h.slot 0).freq ≤ (h.slot i).freq := by
  intro i
  induction i using Nat.strong_induction_on with
  | _ i ih =>
    intro hi
    by_cases h0 : i = 0
    · subst h0; exact Nat.le_refl _
    · exact Nat.le_trans (ih ((i - 1) / 2) (by omega) (by omega)) (hh i hi (by omega))

theorem mem_contents (h : MinHeap) (x : MinHeapNode) (hx : x ∈ contents h) :
    ∃ i, i < h.size ∧ h.slot i = x := by
  unfold contents at hx
  obtain ⟨i, hi, rfl⟩ := List.mem_iff_getElem.1 hx
  rw [List.length_take] at hi
  refine ⟨i, by omega, ?_⟩
  rw [List.getElem_take]
  unfold MinHeap.slot
  rw [List.getD_eq_getElem?_getD, List.getElem?_eq_getElem (by omega)]
  rfl

/-- Effect of `extractMin` on a non-empty min-heap. -/
theorem extractMin_heap (h : MinHeap) (hpos : 0 < h.size) (hlen : h.size ≤ h.array.length)
    (hh : isMinHeap h) :
    ∃ t h', extractMin h = .ok (t, h') ∧ (∀ x ∈ contents h, t.freq ≤ x.freq) ∧
      h'.size + 1 = h.size ∧ isMinHeap h' ∧
      ((contents h : List MinHeapNode) : Multiset MinHeapNode)
        = t ::ₘ ((contents h' : List MinHeapNode) : Multiset MinHeapNode) := by
  obtain ⟨t, h', e, et, es, _, _, ec⟩ := extractMin_spec h hpos hlen
  refine ⟨t, h', e, ?_, by omega, ?_, ec⟩
  · intro x hx
    obtain ⟨i, hi, rfl⟩ := mem_contents h x hx
    rw [et]
    exact root_le_all h hh i hi
  · unfold extractMin at e
    rw [if_neg (by omega)] at e
    simp only [] at e
    obtain ⟨h3, e3, hh3⟩ := minHeapifyAux_heap
      (h.size - 1 + 1)
      { size := h.size - 1, capacity := h.capacity, array := h.array.set 0 (h.slot (h.size - 1)) }
      0 (by simp only [List.length_set]; omega) (by simp only []; omega) (by
        constructor
        · intro i hi hi0 hp
          simp only [MinHeap.slot] at hi ⊢
          rw [getD_set_ne _ _ _ _ _ (by omega), getD_set_ne _ _ _ _ _ (by omega)]
          exact hh i (by omega) hi0
        · intro i _ _ _ h0
          exact absurd h0 (Nat.lt_irrefl 0))
    unfold minHeapify at e
    simp only [] at e
    rw [e3] at e
    simp only [Except.ok.injEq, Prod.mk.injEq] at e
    rw [← e.2]
    exact hh3


theorem getD_set_if (arr : List MinHeapNode) (i k : Nat) (a : MinHeapNode)
    (hi : i < arr.length) :
    (arr.set i a).getD k .null = if k = i then a else arr.getD k .null := by
  by_cases hk : k = i
  · subst hk; rw [if_pos rfl, getD_set_self _ _ _ _ hi]
  · rw [if_neg hk, getD_set_ne _ _ _ _ _ (Ne.symm hk)]

theorem SiftUp_step (orig : List MinHeapNode) (n : Nat) (x : MinHeapNode)
    (arr : List MinHeapNode) (i : Nat) (hS : SiftUp orig n x arr i) (hi0 : i ≠ 0)
    (hlt : x.freq < (arr.getD ((i - 1) / 2) .null).freq) :
    SiftUp orig n x (arr.set i (arr.getD ((i - 1) / 2) .null)) ((i - 1) / 2) := by
  obtain ⟨hin, hn, H1, H2, H3, M1, M2⟩ := hS
  have key : ∀ k, (arr.set i (arr.getD ((i - 1) / 2) .null)).getD k .null
      = if k = i then arr.getD ((i - 1) / 2) .null else arr.getD k .null :=
    fun k => getD_set_if arr i k _ (by omega)
  refine ⟨by omega, by simpa using hn, ?_, ?_, ?_, ?_, ?_⟩
  · intro j hj hj0 hjp hpp
    rw [key j, key ((j - 1) / 2), if_neg (show ¬ j = i by omega)]
    by_cases hpi : (j - 1) / 2 = i
    · rw [if_pos hpi]
      exact H3 j hj hj0 hpi (by omega)
    · rw [if_neg hpi]
      exact H1 j hj hj0 (by omega) hpi
  · intro j hj hj0 hp
    rw [key j]
    by_cases hji : j = i
    · rw [if_pos hji]; exact hlt
    · rw [if_neg hji]
      have := H1 j hj hj0 hji (by omega)
      rw [hp] at this
      omega
  · intro j hj hj0 hp hp0
    rw [key j, key (((i - 1) / 2 - 1) / 2), if_neg (show ¬ ((i - 1) / 2 - 1) / 2 = i by omega)]
    have hpp := H1 ((i - 1) / 2) (by omega) hp0 (by omega) (by omega)
    by_cases hji : j = i
    · rw [if_pos hji]; exact hpp
    · rw [if_neg hji]
      have := H1 j hj hj0 hji (by omega)
      rw [hp] at this
      omega
  · intro k hk
    rw [key k, if_neg (by omega)]
    exact M1 k (by omega)
  · intro k hk hkn
    rw [key k]
    by_cases hki : k = i
    · subst hki
      rw [if_pos rfl]
      have := M1 ((k - 1) / 2) (by omega)
      exact Or.inr ⟨this, by rw [← this]; exact hlt⟩
    · rw [if_neg hki]
      by_cases hlt' : k < i
      · exact Or.inl (M1 k hlt')
      · exact M2 k (by omega) hkn

theorem insertLoop_heap (orig : List MinHeapNode) (n : Nat) (x : MinHeapNode) :
    ∀ (fuel : Nat) (arr : List MinHeapNode) (i : Nat), SiftUp orig n x arr i → i < fuel →
    ∃ arr' j, insertLoop fuel arr i x = .ok (arr', j) ∧ SiftUp orig n x arr' j ∧
      (j = 0 ∨ (arr'.getD ((j - 1) / 2) .null).freq ≤ x.freq)
  | 0, _, _, _, hf => by omega
  | fuel + 1, arr, i, hS, hf => by
    unfold insertLoop
    split
    · rename_i hc
      exact insertLoop_heap orig n x fuel _ _ (SiftUp_step orig n x arr i hS hc.1 hc.2)
        (by omega)
    · rename_i hc
      refine ⟨arr, i, rfl, hS, ?_⟩
      by_cases h0 : i = 0
      · exact Or.inl h0
      · right
        have : ¬ x.freq < (arr.getD ((i - 1) / 2) .null).freq := fun h => hc ⟨h0, h⟩
        omega

theorem SiftUp_init (h : MinHeap) (x : MinHeapNode) (hlen : h.size < h.array.length)
    (hh : isMinHeap h) : SiftUp h.array (h.size + 1) x h.array h.size := by
  refine ⟨by omega, by omega, ?_, ?_, ?_, fun _ _ => rfl, ?_⟩
  · intro j hj hj0 hji _
    exact hh j (by omega) hj0
  · intro j hj hj0 hp; omega
  · intro j hj hj0 hp; omega
  · intro k hk hkn; omega

/-- Effect of `insertMinHeap` on a min-heap with a free slot. -/
theorem insertMinHeap_heap (h : MinHeap) (x : MinHeapNode) (hlen : h.size < h.array.length)
    (hh : isMinHeap h) :
    ∃ h', insertMinHeap h x = .ok h' ∧ isMinHeap h' ∧
      ∃ j, j ≤ h.size ∧ h'.slot j = x ∧
        ∀ k, k < h'.size → k ≠ j → h'.slot k = h.slot k ∨
          (j < k ∧ h'.slot k = h.slot ((k - 1) / 2) ∧ x.freq < (h.slot ((k - 1) / 2)).freq) := by
  obtain ⟨arr', j, e, hS, hex⟩ := insertLoop_heap h.array (h.size + 1) x (h.size + 1) h.array
    h.size (SiftUp_init h x hlen hh) (by omega)
  obtain ⟨hjn, hn, H1, H2, _, M1, M2⟩ := hS
  unfold insertMinHeap
  rw [if_neg (by omega)]
  simp only [Nat.add_sub_cancel]
  rw [e]
  simp only []
  have key : ∀ k, (arr'.set j x).getD k .null = if k = j then x else arr'.getD k .null :=
    fun k => getD_set_if arr' j k x (by omega)
  refine ⟨_, rfl, ?_, j, by omega, ?_, ?_⟩
  · intro m hm hm0
    simp only [MinHeap.slot] at hm ⊢
    rw [key m, key ((m - 1) / 2)]
    by_cases hmj : m = j
    · subst hmj
      rw [if_pos rfl, if_neg (show ¬ (m - 1) / 2 = m by omega)]
      rcases hex with h0 | hle
      · omega
      · exact hle
    · rw [if_neg hmj]
      by_cases hpj : (m - 1) / 2 = j
      · rw [if_pos hpj]
        exact Nat.le_of_lt (H2 m hm hm0 hpj)
      · rw [if_neg hpj]
        exact H1 m hm hm0 hmj hpj
  · simp only [MinHeap.slot]
    rw [key j, if_pos rfl]
  · intro k hk hkj
    simp only [MinHeap.slot] at hk ⊢
    rw [key k, if_neg hkj]
    by_cases hlt : k < j
    · exact Or.inl (M1 k hlt)
    · rcases M2 k (by omega) hk with h1 | h2
      · exact Or.inl h1
      · exact Or.inr ⟨by omega, h2⟩


/-- C11. For a non-empty queue (with `size <= capacity` slots in use) whose
array satisfies the min-heap property, `extractMin` returns a node whose weight
is at most the weight of every node in the queue, decreases `size` by exactly
one, and leaves an array that satisfies the min-heap property and holds, as a
multiset, the previous nodes minus the returned one. -/
theorem extractMin_on_min_heap (h : MinHeap) (hcap : h.array.length = h.capacity)
    (hsz : h.size ≤ h.capacity) (hpos : 0 < h.size) (hh : isMinHeap h) :
    ∃ t h', extractMin h = .ok (t, h') ∧ (∀ x ∈ contents h, t.freq ≤ x.freq) ∧
      h'.size + 1 = h.size ∧ isMinHeap h' ∧
      ((contents h : List MinHeapNode) : Multiset MinHeapNode)
        = t ::ₘ ((contents h' : List MinHeapNode) : Multiset MinHeapNode) :=
  extractMin_heap h hpos (by omega) hh

/-- Instance of `extractMin_on_min_heap` on the queue `heapThree`. -/
theorem extractMin_on_min_heap_witness :
    heapThree.array.length = heapThree.capacity ∧ heapThree.size ≤ heapThree.capacity ∧
    0 < heapThree.size ∧ isMinHeap heapThree ∧
    ∃ t h', extractMin heapThree = .ok (t, h') ∧
      (∀ x ∈ contents heapThree, t.freq ≤ x.freq) ∧
      h'.size + 1 = heapThree.size ∧ isMinHeap h' ∧
      ((contents heapThree : List MinHeapNode) : Multiset MinHeapNode)
        = t ::ₘ ((contents h' : List MinHeapNode) : Multiset MinHeapNode) :=
  ⟨by decide, by decide, by decide, by decide,
    extractMin_on_min_heap heapThree (by decide) (by decide) (by decide) (by decide)⟩

/-- C12. For a queue with `size < capacity` whose array satisfies the min-heap
property and every node `x`, `insertMinHeap` increases `size` by exactly one
and leaves an array that satisfies the min-heap property and holds, as a
multiset, the previous nodes plus `x`. The node `x` ends in a slot `j`; every
other slot holds the node it held before, or, below `j`, the node of its former
parent slot, and each node moved down in this way is strictly heavier than `x`:
`x` moves above a parent only when its weight is strictly less. -/
theorem insertMinHeap_on_min_heap (h : MinHeap) (x : MinHeapNode)
    (hcap : h.array.length = h.capacity) (hsz : h.size < h.capacity) (hh : isMinHeap h) :
    ∃ h', insertMinHeap h x = .ok h' ∧ h'.size = h.size + 1 ∧ isMinHeap h' ∧
      ((contents h' : List MinHeapNode) : Multiset MinHeapNode)
        = x ::ₘ ((contents h : List MinHeapNode) : Multiset MinHeapNode) ∧
      ∃ j, j ≤ h.size ∧ h'.slot j = x ∧
        ∀ k, k < h'.size → k ≠ j → h'.slot k = h.slot k ∨
          (j < k ∧ h'.slot k = h.slot ((k - 1) / 2) ∧
            x.freq < (h.slot ((k - 1) / 2)).freq) := by
  obtain ⟨h', e, hs, _, _, hc⟩ := insertMinHeap_spec h x (by omega)
  obtain ⟨h'', e', hh', hj⟩ := insertMinHeap_heap h x (by omega) hh
  rw [e] at e'
  simp only [Except.ok.injEq] at e'
  subst e'
  exact ⟨h', e, hs, hh', hc, hj⟩

/-- Instance of `insertMinHeap_on_min_heap`: a node of weight 0 is inserted
into the queue `heapThree`. -/
theorem insertMinHeap_on_min_heap_witness :
    heapThree.array.length = heapThree.capacity ∧ heapThree.size < heapThree.capacity ∧
    isMinHeap heapThree ∧
    ∃ h', insertMinHeap heapThree (newNode 100 0) = .ok h' ∧ h'.size = heapThree.size + 1 ∧
      isMinHeap h' ∧
      ((contents h' : List MinHeapNode) : Multiset MinHeapNode)
        = newNode 100 0 ::ₘ ((contents heapThree : List MinHeapNode) : Multiset MinHeapNode) ∧
      ∃ j, j ≤ heapThree.size ∧ h'.slot j = newNode 100 0 ∧
        ∀ k, k < h'.size → k ≠ j → h'.slot k = heapThree.slot k ∨
          (j < k ∧ h'.slot k = heapThree.slot ((k - 1) / 2) ∧
            (newNode 100 0).freq < (heapThree.slot ((k - 1) / 2)).freq) :=
  ⟨by decide, by decide, by decide,
    insertMinHeap_on_min_heap heapThree (newNode 100 0) (by decide) (by decide) (by decide)⟩


/-! ## The two outputs, paths in the tree, the empty table -/

theorem encodeLoop_packed_any (codes : CodeTable)
    (hc : ∀ b, b < 256 → ∀ c ∈ codes b, c = '0' ∨ c = '1') :
    ∀ (input : List Byte) (s : EncState), s.Packed → (encodeLoop codes input s).Packed
  | [], s, h => by simpa [encodeLoop] using h
  | b :: rest, s, h => by
    simp only [encodeLoop, fgetc]
    split
    · rw [toUChar_toChar_byte]
      exact encodeLoop_packed_any codes hc rest _
        (foldl_encodeBit_packed (codes b.val) s (hc b.val b.isLt) h).1
    · exact h

theorem LeafAt_mem (t : MinHeapNode) (p : List Char) (v : Nat) (h : LeafAt t p v) :
    v ∈ leafBytes t := by
  induction h with
  | leaf d f => simp [leafBytes]
  | left d f l r p v hl ih =>
    have : l ≠ .null := by rintro rfl; simp [leafBytes] at ih
    simp [leafBytes, this, ih]
  | right d f l r p v hr ih =>
    have : r ≠ .null := by rintro rfl; simp [leafBytes] at ih
    simp [leafBytes, this, ih]

theorem LeafAt_pathTo (t : MinHeapNode) : t.Proper → (leafBytes t).Nodup →
    ∀ p v, LeafAt t p v → p = pathTo v t := by
  induction t with
  | null => intro h; exact h.elim
  | mk d f l r ihl ihr =>
    intro hP hN p v h
    rcases hP with ⟨rfl, rfl⟩ | ⟨hl, hr⟩
    · cases h with
      | leaf => simp [pathTo]
      | left _ _ _ _ p v h' => cases h'
      | right _ _ _ _ p v h' => cases h'
    · rw [leafBytes_node d f hl] at hN
      obtain ⟨hNl, hNr, hdis⟩ := List.nodup_append.1 hN
      rw [pathTo_node v d f hl]
      cases h with
      | leaf => exact absurd rfl (Proper_ne_null hl)
      | left _ _ _ _ p v h' =>
        rw [if_pos (LeafAt_mem l p v h'), ihl hl hNl p v h']
      | right _ _ _ _ p v h' =>
        have hm := LeafAt_mem r p v h'
        rw [if_neg (fun hml => hdis hml hm), ihr hr hNr p v h']

theorem LeafAt_of_mem (t : MinHeapNode) : t.Proper →
    ∀ v, v ∈ leafBytes t → LeafAt t (pathTo v t) v := by
  induction t with
  | null => intro h; exact h.elim
  | mk d f l r ihl ihr =>
    intro hP v hv
    rcases hP with ⟨rfl, rfl⟩ | ⟨hl, hr⟩
    · simp only [leafBytes, and_self, if_true, List.mem_singleton] at hv
      subst hv
      simp only [pathTo, and_self, if_true]
      exact LeafAt.leaf d f
    · rw [leafBytes_node d f hl, List.mem_append] at hv
      rw [pathTo_node v d f hl]
      by_cases hvl : v ∈ leafBytes l
      · rw [if_pos hvl]
        exact LeafAt.left d f l r _ v (ihl hl v hvl)
      · rw [if_neg hvl]
        exact LeafAt.right d f l r _ v (ihr hr v (hv.resolve_left hvl))

theorem encodeFile_of_packed (s : EncState) (h : s.Packed) :
    ∃ pad, pad < 8 ∧
      unpack (if s.bitCount > 0 then
          (s.outBin ++ [(s.buffer * 2 ^ (8 - s.bitCount)) % 256], s.outTxt)
        else (s.outBin, s.outTxt)).1
      = (if s.bitCount > 0 then
          (s.outBin ++ [(s.buffer * 2 ^ (8 - s.bitCount)) % 256], s.outTxt)
        else (s.outBin, s.outTxt)).2 ++ List.replicate pad '0' := by
  obtain ⟨h1, h2, h3⟩ := h
  split
  · refine ⟨8 - s.bitCount, by omega, ?_⟩
    simp only []
    rw [unpack_append, unpack_singleton _ (Nat.mod_lt _ (by decide))]
    have e8 : (256 : Nat) = 2 ^ 8 := rfl
    rw [e8, toBits_mod]
    have := toBits_shift s.bitCount s.buffer (8 - s.bitCount)
    rw [Nat.add_sub_cancel' (by omega)] at this
    rw [this, ← List.append_assoc, h3]
  · refine ⟨0, by decide, ?_⟩
    have h0 : s.bitCount = 0 := by omega
    rw [h0] at h3
    simp only [toBits, List.append_nil] at h3
    simp only [List.replicate_zero, List.append_nil]
    exact h3

/-- C14. For every code table whose rows are strings of `'0'`/`'1'` and every
input, the bits of the bytes `encodeFile` writes to the binary output, each
byte most significant bit first, are exactly the characters it writes to the
text output followed by fewer than 8 zero bits. -/
theorem encodeFile_outputs_agree (codes : CodeTable)
    (hc : ∀ b, b < 256 → ∀ c ∈ codes b, c = '0' ∨ c = '1') (input : List Byte) :
    ∃ pad, pad < 8 ∧
      unpack (encodeFile input codes).1
        = (encodeFile input codes).2 ++ List.replicate pad '0' :=
  encodeFile_of_packed _ (encodeLoop_packed_any codes hc input
    { buffer := 0, bitCount := 0, outBin := [], outTxt := [] } ⟨by decide, by decide, rfl⟩)

/-- Instance of `encodeFile_outputs_agree` on the file "aaaaabc" with the table
a -> "0", b -> "10", c -> "11". -/
theorem encodeFile_outputs_agree_witness :
    (∀ b, b < 256 → ∀ c ∈ altCodes b, c = '0' ∨ c = '1') ∧
    ∃ pad, pad < 8 ∧
      unpack (encodeFile inputAaaaabc altCodes).1
        = (encodeFile inputAaaaabc altCodes).2 ++ List.replicate pad '0' :=
  ⟨by decide!, encodeFile_outputs_agree altCodes (by decide!) inputAaaaabc⟩

/-- C16, as stated, fails on the tree that `buildHuffmanTree` returns for the
table `freqDeep`: its internal nodes have two children, its leaves carry
pairwise distinct byte values and the leaf of byte 0 is 101 branches below the
root, and `generateCodes` called with `top = 0` writes outside the
100-character buffer `code`, so it does not store the paths; hence the claim
does not hold for every such tree. -/
theorem deep_tree_paths_not_stored :
    (∃ t, buildHuffmanTree freqDeep = .ok t ∧ t.Proper ∧ (leafBytes t).Nodup ∧
      t.height = 101 ∧ (∃ p, LeafAt t p 0 ∧ p.length = 101) ∧
      (∀ code codes, generateCodes t code 0 codes = .error .undefined) ∧
      ¬ ∃ out, generateCodes t [] 0 emptyCodes = .ok out ∧
        ∀ p v, LeafAt t p v → out v = p) ∧
    ¬ ∀ t : MinHeapNode, t.Proper → (leafBytes t).Nodup →
      ∃ out, generateCodes t [] 0 emptyCodes = .ok out ∧
        (∀ p v, LeafAt t p v → out v = p) ∧
        (∀ v, (¬ ∃ p, LeafAt t p v) → out v = []) := by
  have h : (buildHuffmanTree freqDeep).map (fun root =>
      (decide (0 ∈ leafBytes root), (pathTo 0 root).length, root.height))
      = .ok (true, 101, 101) := by decide!
  obtain ⟨t, e, hP, hL⟩ := buildHuffmanTree_spec freqDeep (by decide!)
  have hN : (leafBytes t).Nodup := hL.nodup_iff.2 (presentBytes_nodup freqDeep)
  rw [e] at h
  have h2 : (decide (0 ∈ leafBytes t), (pathTo 0 t).length, t.height) = (true, 101, 101) := by
    simpa [Except.map] using h
  have hh : t.height = 101 := congrArg (fun p => p.2.2) h2
  have hm : 0 ∈ leafBytes t := of_decide_eq_true (congrArg (fun p => p.1) h2)
  have hout : ∀ code codes, generateCodes t code 0 codes = .error .undefined :=
    fun code codes => generateCodes_out_of_bounds t code 0 codes (by rw [hh]; decide)
  refine ⟨⟨t, e, hP, hN, hh, ⟨_, LeafAt_of_mem t hP 0 hm, congrArg (fun p => p.2.1) h2⟩,
    hout, ?_⟩, fun hall => ?_⟩
  · rintro ⟨out, g, _⟩
    rw [hout] at g
    cases g
  · obtain ⟨out, g, _⟩ := hall t hP hN
    rw [hout] at g
    cases g

/-- C16, amended. For a tree whose internal nodes have two children, whose
leaves carry pairwise distinct byte values (read as `unsigned char`) and whose
height is below `MAX_TREE_HT`, `generateCodes` called with `top = 0`, whatever
the scratch buffer holds, returns a table that has in row `v` the root-to-leaf
path of the leaf carrying `v`, and in which every row whose byte is carried by
no leaf is unchanged (so empty when the table was empty). A leaf made by
`newNode(v, f)` carries `v` for every `v` from 0 to 255, also when `v >= 128`
is stored as a negative `char`. -/
theorem generateCodes_stores_paths (t : MinHeapNode) (hP : t.Proper)
    (hN : (leafBytes t).Nodup) (hh : t.height < MAX_TREE_HT) (code : List Char)
    (codes : CodeTable) :
    (∃ out, generateCodes t code 0 codes = .ok out ∧
      (∀ p v, LeafAt t p v → out v = p) ∧
      (∀ v, (¬ ∃ p, LeafAt t p v) → out v = codes v)) ∧
    (∃ out, generateCodes t code 0 emptyCodes = .ok out ∧
      (∀ p v, LeafAt t p v → out v = p) ∧
      (∀ v, (¬ ∃ p, LeafAt t p v) → out v = [])) ∧
    (∀ (v f : Nat), v < 256 → LeafAt (newNode (toChar v) f) [] v) := by
  have hspec := fun cs v => storeCodes_spec t hP hN code 0 cs v (Nat.zero_le _) (by simp)
  have hgen := fun cs => generateCodes_eq_storeCodes t code 0 cs (Proper_ne_null hP)
    (by omega)
  have hno : ∀ v, (¬ ∃ p, LeafAt t p v) → v ∉ leafBytes t :=
    fun v hv hm => hv ⟨_, LeafAt_of_mem t hP v hm⟩
  have hpath : ∀ cs p v, LeafAt t p v → storeCodes t code 0 cs v = p := by
    intro cs p v h
    rw [hspec, if_pos (LeafAt_mem t p v h), LeafAt_pathTo t hP hN p v h]
    simp
  refine ⟨⟨_, hgen codes, hpath codes, fun v hv => ?_⟩,
    ⟨_, hgen emptyCodes, hpath emptyCodes, fun v hv => ?_⟩, fun v f hv => ?_⟩
  · rw [hspec, if_neg (hno v hv)]
  · rw [hspec, if_neg (hno v hv)]
    rfl
  · have := LeafAt.leaf (toChar v) f
    rw [toUChar_toChar v hv] at this
    exact this

/-- Instance of `generateCodes_stores_paths` on a tree of height 1 with a leaf
for the byte 200. -/
theorem generateCodes_stores_paths_witness :
    treeHighByte.Proper ∧ (leafBytes treeHighByte).Nodup ∧
    treeHighByte.height < MAX_TREE_HT ∧
    (∃ out, generateCodes treeHighByte [] 0 altCodes = .ok out ∧
      (∀ p v, LeafAt treeHighByte p v → out v = p) ∧
      (∀ v, (¬ ∃ p, LeafAt treeHighByte p v) → out v = altCodes v)) ∧
    (∃ out, generateCodes treeHighByte [] 0 emptyCodes = .ok out ∧
      (∀ p v, LeafAt treeHighByte p v → out v = p) ∧
      (∀ v, (¬ ∃ p, LeafAt treeHighByte p v) → out v = [])) ∧
    (∀ (v f : Nat), v < 256 → LeafAt (newNode (toChar v) f) [] v) :=
  ⟨Or.inr ⟨Or.inl ⟨rfl, rfl⟩, Or.inl ⟨rfl, rfl⟩⟩, by decide, by decide,
    generateCodes_stores_paths treeHighByte (Or.inr ⟨Or.inl ⟨rfl, rfl⟩, Or.inl ⟨rfl, rfl⟩⟩)
      (by decide) (by decide) [] altCodes⟩

/-- C13, at the failing input of the empty file (all-zero table): the first
loop of `buildHuffmanTree` queues nothing, the merge loop does not run, and the
final `extractMin` is called on the empty queue, where it reads `array[size - 1]`
outside the array: the behaviour is undefined, no error is reported. -/
theorem empty_table_undefined :
    (∀ i, i < 256 → countFrequencies [] zeroFreq i = 0) ∧
    (fillLeaves (countFrequencies [] zeroFreq)).size = 0 ∧
    mergeLoop 256 (fillLeaves (countFrequencies [] zeroFreq))
      = .ok (fillLeaves (countFrequencies [] zeroFreq)) ∧
    extractMin (fillLeaves (countFrequencies [] zeroFreq)) = .error .undefined ∧
    buildHuffmanTree (countFrequencies [] zeroFreq) = .error .undefined := by
  decide!


/-! ## Counting up to the first 0xFF -/

theorem countFrequencies_beforeFF : ∀ (input : List Byte) (freq : FreqTable),
    countFrequencies input freq = countFrequencies (beforeFF input) freq
  | [], _ => rfl
  | b :: rest, freq => by
    unfold beforeFF
    by_cases hb : b.val = 255
    · have h : toChar ((b.val : Nat) : Int) = EOF := (toChar_byte_eq_EOF b).2 hb
      rw [List.takeWhile_cons_of_neg (by simpa using hb)]
      simp only [countFrequencies, fgetc, ne_eq, h, not_true_eq_false, if_false]
    · have h : toChar ((b.val : Nat) : Int) ≠ EOF := fun h => hb ((toChar_byte_eq_EOF b).1 h)
      rw [List.takeWhile_cons_of_pos (by simpa using hb)]
      simp only [countFrequencies, fgetc, ne_eq, h, not_false_eq_true, if_true]
      exact countFrequencies_beforeFF rest _

theorem beforeFF_no_ff (input : List Byte) : ∀ b ∈ beforeFF input, b.val ≠ 255 := by
  intro b hb
  have := List.mem_takeWhile_imp hb
  simpa using this

theorem wrapInt_add (y : Int) (n : Nat) : wrapInt (wrapInt (y + 1) + n) = wrapInt (y + (n + 1)) := by
  unfold wrapInt
  omega

theorem countFrequencies_replicate (a : Byte) (ha : a.val ≠ 255) : ∀ (n : Nat) (freq : FreqTable),
    0 < n → countFrequencies (List.replicate n a) freq a.val = wrapInt (freq a.val + n)
  | 0, _, h => by omega
  | n + 1, freq, _ => by
    have hne : toChar ((a.val : Nat) : Int) ≠ EOF := fun h => ha ((toChar_byte_eq_EOF a).1 h)
    rw [List.replicate_succ]
    simp only [countFrequencies, fgetc, ne_eq, hne, not_false_eq_true, if_true,
      toUChar_toChar_byte]
    by_cases hn : n = 0
    · subst hn
      simp [countFrequencies]
    · rw [countFrequencies_replicate a ha n _ (by omega), Function.update_same]
      have := wrapInt_add (freq a.val) n
      push_cast
      exact this

theorem takeWhile_replicate_pos (p : Byte → Bool) (a : Byte) (hp : p a = true) :
    ∀ n, (List.replicate n a).takeWhile p = List.replicate n a
  | 0 => rfl
  | n + 1 => by
    rw [List.replicate_succ, List.takeWhile_cons_of_pos hp, takeWhile_replicate_pos p a hp n]

/-- C17, as stated, fails on the file of 2^31 bytes 'a': the entry for 'a' is
an `int`, which wraps to -2^31, while 2^31 occurrences of 'a' precede the
first 0xFF (there is none). -/
theorem count_wraps_at_two_pow_31 :
    countFrequencies (List.replicate 2147483648 (97 : Byte)) zeroFreq 97 = -2147483648 ∧
    occurrencesBeforeFF (List.replicate 2147483648 (97 : Byte)) 97 = 2147483648 := by
  constructor
  · have h := countFrequencies_replicate 97 (by decide) 2147483648 zeroFreq (by decide)
    rw [show ((97 : Byte).val) = 97 from rfl] at h
    rw [h]
    decide
  · unfold occurrencesBeforeFF beforeFF
    rw [takeWhile_replicate_pos _ 97 (by decide), List.map_replicate]
    exact List.count_replicate_self _ _

/-- C17, amended. With `char` a signed 8-bit type, for every input in which
fewer than 2^31 bytes precede the first byte 0xFF, `countFrequencies` run on
the all-zero table leaves in the entry of every byte value `b` the number of
occurrences of `b` before the first 0xFF, and 0 in the entry of 0xFF. -/
theorem countFrequencies_counts_before_ff (input : List Byte)
    (hlen : (beforeFF input).length < 2147483648) :
    (∀ b, countFrequencies input zeroFreq b = (occurrencesBeforeFF input b : Int)) ∧
    countFrequencies input zeroFreq 255 = 0 := by
  have h := countFrequencies_apply (beforeFF input) zeroFreq (beforeFF_no_ff input) (fun i => by
    simp only [zeroFreq]; omega)
  have hb : ∀ b, countFrequencies input zeroFreq b = (occurrencesBeforeFF input b : Int) := by
    intro b
    rw [countFrequencies_beforeFF, h b]
    simp [zeroFreq, occurrencesBeforeFF]
  refine ⟨hb, ?_⟩
  rw [hb 255]
  have : occurrencesBeforeFF input 255 = 0 := by
    unfold occurrencesBeforeFF
    apply List.count_eq_zero_of_not_mem
    intro hm
    obtain ⟨c, hc, hv⟩ := List.mem_map.1 hm
    exact beforeFF_no_ff input c hc hv
  rw [this]
  rfl

/-- Instance of `countFrequencies_counts_before_ff` on the file "ab", 0xFF,
"abababa". -/
theorem countFrequencies_counts_before_ff_witness :
    (beforeFF inputAbFFLong).length < 2147483648 ∧
    (∀ b, countFrequencies inputAbFFLong zeroFreq b
      = (occurrencesBeforeFF inputAbFFLong b : Int)) ∧
    countFrequencies inputAbFFLong zeroFreq 255 = 0 :=
  ⟨by decide, countFrequencies_counts_before_ff inputAbFFLong (by decide)⟩


/-! ## Leaves and weights of the tree -/

theorem mergeLoop_pred (P : MinHeapNode → Prop)
    (hmerge : ∀ l r, P l → P r → P (.mk 36 ((l.freq + r.freq) % 4294967296) l r)) :
    ∀ (fuel : Nat) (h : MinHeap), h.size ≤ h.array.length → 1 ≤ h.size →
    h.size ≤ fuel → (∀ t ∈ contents h, P t) →
    ∃ h', mergeLoop fuel h = .ok h' ∧ (∀ t ∈ contents h', P t)
  | 0, _, _, h1, hf, _ => by omega
  | fuel + 1, h, hlen, h1, hf, hP => by
    unfold mergeLoop
    split
    · rename_i hgt
      obtain ⟨l, ha, ea, _, sa, _, la, ca⟩ := extractMin_spec h (by omega) hlen
      obtain ⟨r, hb, eb, _, sb, _, lb, cb⟩ := extractMin_spec ha (by omega) (by omega)
      obtain ⟨hc, ec, sc, _, lc, cc⟩ := insertMinHeap_spec hb
        (MinHeapNode.mk 36 ((l.freq + r.freq) % 4294967296) l r) (by omega)
      rw [ea]; simp only []
      rw [eb]; simp only []
      rw [ec]; simp only []
      have hPl : P l := hP l (by
        rw [← Multiset.mem_coe, ca]; exact Multiset.mem_cons_self _ _)
      have hPa : ∀ t ∈ contents ha, P t := fun t ht => hP t (by
        rw [← Multiset.mem_coe, ca]; exact Multiset.mem_cons_of_mem (Multiset.mem_coe.2 ht))
      have hPr : P r := hPa r (by
        rw [← Multiset.mem_coe, cb]; exact Multiset.mem_cons_self _ _)
      have hPb : ∀ t ∈ contents hb, P t := fun t ht => hPa t (by
        rw [← Multiset.mem_coe, cb]; exact Multiset.mem_cons_of_mem (Multiset.mem_coe.2 ht))
      have hPc : ∀ t ∈ contents hc, P t := by
        intro t ht
        rw [← Multiset.mem_coe, cc, Multiset.mem_cons] at ht
        rcases ht with rfl | ht
        · exact hmerge l r hPl hPr
        · exact hPb t (Multiset.mem_coe.1 ht)
      exact mergeLoop_pred P hmerge fuel hc (by omega) (by omega) (by omega) hPc
    · exact ⟨h, rfl, hP⟩

/-- The tree returned by `buildHuffmanTree` has every property that the
leaves of the first loop have and that a merge keeps. -/
theorem buildHuffmanTree_pred (freq : FreqTable) (P : MinHeapNode → Prop)
    (hleaf : ∀ i ∈ presentBytes freq, P (leafOf freq i))
    (hmerge : ∀ l r, P l → P r → P (.mk 36 ((l.freq + r.freq) % 4294967296) l r))
    (root : MinHeapNode) (e : buildHuffmanTree freq = .ok root) : P root := by
  obtain ⟨f1, _, f3, f4⟩ := fillLeaves_spec freq
  have hle := presentBytes_length_le freq
  by_cases h1 : 1 ≤ (presentBytes freq).length
  · obtain ⟨h', e1, hP'⟩ := mergeLoop_pred P hmerge 256 (fillLeaves freq) (by omega) (by omega)
      (by omega) (by
        rw [f4]; intro t ht
        obtain ⟨i, hi, rfl⟩ := List.mem_map.1 ht
        exact hleaf i hi)
    obtain ⟨hw, ew, sw, lw, _, _⟩ := mergeLoop_spec 256 (fillLeaves freq) (by omega) (by omega)
      (by omega) (by
        rw [f4]; intro t ht
        obtain ⟨i, _, rfl⟩ := List.mem_map.1 ht
        exact Proper_leafOf freq i)
    rw [e1] at ew
    simp only [Except.ok.injEq] at ew
    subst ew
    obtain ⟨t, h'', e2, _, _, _, _, c2⟩ := extractMin_spec h' (by omega) lw
    unfold buildHuffmanTree at e
    rw [e1] at e; simp only [] at e
    rw [e2] at e; simp only [Except.ok.injEq] at e
    subst e
    exact hP' t (by rw [← Multiset.mem_coe, c2]; exact Multiset.mem_cons_self _ _)
  · exfalso
    have hz : (fillLeaves freq).size = 0 := by omega
    unfold buildHuffmanTree at e
    rw [mergeLoop, if_neg (by omega)] at e
    simp only [] at e
    rw [extractMin, if_pos (Or.inl hz)] at e
    cases e

theorem WeightsOk_exact (freq : FreqTable) (t : MinHeapNode) :
    WeightsOk freq false t → leafTotal t < 4294967296 →
    WeightsOk freq true t ∧ t.freq = leafTotal t := by
  induction t with
  | null => intro h; exact h.elim
  | mk d f l r ihl ihr =>
    intro hW hT
    rcases hW with ⟨rfl, rfl, hf⟩ | ⟨hl, hr, hf⟩
    · exact ⟨Or.inl ⟨rfl, rfl, hf⟩, by simp [leafTotal, MinHeapNode.freq]⟩
    · have hl0 : l ≠ .null := by rintro rfl; exact hl
      simp only [leafTotal, hl0, false_and, if_false] at hT ⊢
      obtain ⟨hl', el⟩ := ihl hl (by omega)
      obtain ⟨hr', er⟩ := ihr hr (by omega)
      simp only [Bool.false_eq_true, if_false] at hf
      have hf' : f = l.freq + r.freq := by
        rw [hf]; exact Nat.mod_eq_of_lt (by omega)
      refine ⟨Or.inr ⟨hl', hr', by simpa using hf'⟩, ?_⟩
      simp only [MinHeapNode.freq]
      omega

theorem leafTotal_eq_sum (freq : FreqTable) (e : Bool) (t : MinHeapNode) :
    WeightsOk freq e t → (leafTotal t : Int) = ((leafBytes t).map freq).sum := by
  induction t with
  | null => intro h; exact h.elim
  | mk d f l r ihl ihr =>
    intro hW
    rcases hW with ⟨rfl, rfl, hf⟩ | ⟨hl, hr, _⟩
    · simp [leafTotal, leafBytes, hf]
    · have hl0 : l ≠ .null := by rintro rfl; exact hl
      simp only [leafTotal, leafBytes, hl0, false_and, if_false, List.map_append,
        List.sum_append, Nat.cast_add]
      rw [ihl hl, ihr hr]

theorem sum_filter_pos (freq : FreqTable) : ∀ (l : List Nat), (∀ i ∈ l, 0 ≤ freq i) →
    ((l.filter (fun i => decide (freq i > 0))).map freq).sum = (l.map freq).sum
  | [], _ => rfl
  | i :: l, h => by
    have ih := sum_filter_pos freq l (fun j hj => h j (List.mem_cons_of_mem _ hj))
    have hi := h i (List.mem_cons_self _ _)
    by_cases hp : freq i > 0
    · simp only [List.filter_cons, hp, decide_True, if_true, List.map_cons, List.sum_cons, ih]
    · have h0 : freq i = 0 := by omega
      simp only [List.filter_cons, hp, decide_False, List.map_cons, List.sum_cons, h0]
      simpa using ih

theorem WeightsOk_leafOf (freq : FreqTable) (i : Nat) (hi : i < 256) (h0 : 0 ≤ freq i)
    (h1 : freq i < 4294967296) (e : Bool) : WeightsOk freq e (leafOf freq i) := by
  refine Or.inl ⟨rfl, rfl, ?_⟩
  rw [toUChar_toChar i hi]
  unfold toUnsigned
  omega

/-- C15, as stated, fails on the table with the entry 2^31 - 1 for the bytes
0, 1 and 2: the children of the root have the weights 2147483647 and
4294967294, whose sum is 6442450941, as is the sum of all frequencies, but the
weight of the root is 2147483645, the sum reduced modulo 2^32. -/
theorem root_weight_wraps :
    (∀ i, i < 256 → 0 ≤ freqBig i ∧ freqBig i < 2147483648) ∧
    1 ≤ nonZeroCount freqBig ∧
    ∃ root, buildHuffmanTree freqBig = .ok root ∧
      root.left.freq = 2147483647 ∧ root.right.freq = 4294967294 ∧
      root.freq = 2147483645 ∧ root.freq ≠ root.left.freq + root.right.freq ∧
      ((List.range 256).map freqBig).sum = 6442450941 ∧
      (root.freq : Int) ≠ ((List.range 256).map freqBig).sum :=
  ⟨by decide!, by decide!,
    .mk 36 2147483645 (newNode 1 2147483647)
      (.mk 36 4294967294 (newNode 0 2147483647) (newNode 2 2147483647)),
    by decide!, by decide!, by decide!, by decide!, by decide!, by decide!, by decide!⟩

/-- C15, amended. For a frequency table with entries from 0 to 2^31 - 1 and at
least one non-zero entry, the tree returned by `buildHuffmanTree` has exactly
one leaf per byte value with non-zero frequency and no other leaves, each
leaf's weight equals that byte's frequency, every internal node has exactly two
children and its weight is the sum of its children's weights reduced modulo
2^32; when the frequencies sum to less than 2^32, every internal weight is the
exact sum and the root's weight equals the sum of all frequencies. -/
theorem tree_leaves_and_weights (freq : FreqTable)
    (hrange : ∀ i, i < 256 → 0 ≤ freq i ∧ freq i < 2147483648)
    (h1 : 1 ≤ nonZeroCount freq) :
    ∃ root, buildHuffmanTree freq = .ok root ∧
      (leafBytes root).Perm ((List.range 256).filter (fun i => decide (freq i ≠ 0))) ∧
      WeightsOk freq false root ∧
      (((List.range 256).map freq).sum < 4294967296 →
        WeightsOk freq true root ∧ (root.freq : Int) = ((List.range 256).map freq).sum) := by
  have hnn : ∀ i, i < 256 → 0 ≤ freq i := fun i hi => (hrange i hi).1
  rw [nonZeroCount_eq freq hnn] at h1
  obtain ⟨root, e, _, hL⟩ := buildHuffmanTree_spec freq h1
  have hW : WeightsOk freq false root := buildHuffmanTree_pred freq (WeightsOk freq false)
    (fun i hi => by
      have := (mem_presentBytes freq i).1 hi
      exact WeightsOk_leafOf freq i this.1 (hnn i this.1) (by
        have := (hrange i this.1).2; omega) false)
    (fun l r hl hr => Or.inr ⟨hl, hr, by simp⟩) root e
  refine ⟨root, e, ?_, hW, fun hsum => ?_⟩
  · rw [← presentBytes_eq_of_nonneg freq hnn]; exact hL
  · have hT : (leafTotal root : Int) = ((List.range 256).map freq).sum := by
      rw [leafTotal_eq_sum freq false root hW, (hL.map freq).sum_eq]
      exact sum_filter_pos freq (List.range 256) (fun i hi => hnn i (List.mem_range.1 hi))
    obtain ⟨hE, hf⟩ := WeightsOk_exact freq root hW (by omega)
    exact ⟨hE, by rw [hf, hT]⟩

/-- Instance of `tree_leaves_and_weights` on the table counted from "aaaaabc". -/
theorem tree_leaves_and_weights_witness :
    (∀ i, i < 256 → 0 ≤ countFrequencies inputAaaaabc zeroFreq i ∧
      countFrequencies inputAaaaabc zeroFreq i < 2147483648) ∧
    1 ≤ nonZeroCount (countFrequencies inputAaaaabc zeroFreq) ∧
    ∃ root, buildHuffmanTree (countFrequencies inputAaaaabc zeroFreq) = .ok root ∧
      (leafBytes root).Perm ((List.range 256).filter
        (fun i => decide (countFrequencies inputAaaaabc zeroFreq i ≠ 0))) ∧
      WeightsOk (countFrequencies inputAaaaabc zeroFreq) false root ∧
      (((List.range 256).map (countFrequencies inputAaaaabc zeroFreq)).sum < 4294967296 →
        WeightsOk (countFrequencies inputAaaaabc zeroFreq) true root ∧
        (root.freq : Int) = ((List.range 256).map (countFrequencies inputAaaaabc zeroFreq)).sum) :=
  ⟨by decide!, by decide!,
    tree_leaves_and_weights (countFrequencies inputAaaaabc zeroFreq) (by decide!) (by decide!)⟩


/-! ## Termination -/

theorem mergeLoop_succ (fuel : Nat) (h : MinHeap) :
    mergeLoop (fuel + 1) h =
      if h.size > 1 then
        match mergeStep h with
        | .error e => .error e
        | .ok h3 => mergeLoop fuel h3
      else .ok h := by
  rw [mergeLoop, mergeStep]
  split
  · cases extractMin h with
    | error e => rfl
    | ok a =>
      obtain ⟨l, h1⟩ := a
      simp only []
      cases extractMin h1 with
      | error e => rfl
      | ok b =>
        obtain ⟨r, h2⟩ := b
        simp only []
  · rfl

theorem mergeStep_spec (h : MinHeap) (h2 : 2 ≤ h.size) (hlen : h.size ≤ h.array.length) :
    ∃ h3, mergeStep h = .ok h3 ∧ h3.size + 1 = h.size ∧ h3.array.length = h.array.length := by
  obtain ⟨l, ha, ea, _, sa, _, la, _⟩ := extractMin_spec h (by omega) hlen
  obtain ⟨r, hb, eb, _, sb, _, lb, _⟩ := extractMin_spec ha (by omega) (by omega)
  obtain ⟨hc, ec, sc, _, lc, _⟩ := insertMinHeap_spec hb
    (MinHeapNode.mk 36 ((l.freq + r.freq) % 4294967296) l r) (by omega)
  refine ⟨hc, ?_, by omega, by omega⟩
  unfold mergeStep
  rw [ea]; simp only []
  rw [eb]; simp only []
  exact ec

theorem iterSteps_size : ∀ (k : Nat) (h : MinHeap), h.size ≤ h.array.length → k + 1 ≤ h.size →
    ∃ hk, iterSteps k h = .ok hk ∧ hk.size + k = h.size ∧ hk.array.length = h.array.length
  | 0, h, _, _ => ⟨h, rfl, rfl, rfl⟩
  | k + 1, h, hlen, hk => by
    obtain ⟨h3, e, s, l⟩ := mergeStep_spec h (by omega) hlen
    obtain ⟨h', e', s', l'⟩ := iterSteps_size k h3 (by omega) (by omega)
    refine ⟨h', ?_, by omega, by omega⟩
    rw [iterSteps, e]
    exact e'

theorem mergeLoop_eq_iterSteps : ∀ (k : Nat) (h : MinHeap) (fuel : Nat),
    h.size ≤ h.array.length → k + 1 = h.size → k < fuel → mergeLoop fuel h = iterSteps k h
  | k, h, 0, _, _, hf => by omega
  | 0, h, fuel + 1, _, hk, _ => by
    rw [mergeLoop_succ, if_neg (by omega)]
    rfl
  | k + 1, h, fuel + 1, hlen, hk, hf => by
    obtain ⟨h3, e, s, l⟩ := mergeStep_spec h (by omega) hlen
    rw [mergeLoop_succ, if_pos (by omega), iterSteps, e]
    simp only []
    exact mergeLoop_eq_iterSteps k h3 fuel (by omega) (by omega) (by omega)

/-- C18. For a frequency table (non-negative counts) with `n >= 1` non-zero
entries `buildHuffmanTree` returns: the queue holds `n` nodes after the first
loop, after `k <= n - 1` runs of the loop body it holds `n - k` nodes (each run
removes exactly one), so the guard `size > 1` holds before each of the first
`n - 1` runs and fails after them, and the loop is exactly these `n - 1` runs.
Every call of `minHeapify` on a queue inside its array returns: it recurses
only on an index that is larger than its argument and below `size`, so a fuel
above `size - idx` is never used up. -/
theorem buildHuffmanTree_terminates (freq : FreqTable) (hnn : ∀ i, i < 256 → 0 ≤ freq i)
    (h1 : 1 ≤ nonZeroCount freq) :
    (∃ root, buildHuffmanTree freq = .ok root) ∧
    (fillLeaves freq).size = nonZeroCount freq ∧
    (∀ k, k ≤ nonZeroCount freq - 1 →
      ∃ hk, iterSteps k (fillLeaves freq) = .ok hk ∧ hk.size = nonZeroCount freq - k) ∧
    mergeLoop 256 (fillLeaves freq) = iterSteps (nonZeroCount freq - 1) (fillLeaves freq) ∧
    (∀ (h : MinHeap) (idx fuel : Nat), h.size ≤ h.array.length → h.size - idx < fuel →
      (∃ h', minHeapifyAux fuel h idx = .ok h') ∧
      (pickSmallest h idx = idx ∨
        (idx < pickSmallest h idx ∧ pickSmallest h idx < h.size))) := by
  rw [nonZeroCount_eq freq hnn] at h1 ⊢
  obtain ⟨f1, _, f3, _⟩ := fillLeaves_spec freq
  have hle := presentBytes_length_le freq
  obtain ⟨root, e, _⟩ := buildHuffmanTree_spec freq h1
  refine ⟨⟨root, e⟩, f3, fun k hk => ?_, ?_, fun h idx fuel hlen hf => ⟨?_, ?_⟩⟩
  · obtain ⟨hk', e', s', _⟩ := iterSteps_size k (fillLeaves freq) (by omega) (by omega)
    exact ⟨hk', e', by omega⟩
  · exact mergeLoop_eq_iterSteps _ _ 256 (by omega) (by omega) (by omega)
  · obtain ⟨h', e', _⟩ := minHeapifyAux_spec fuel h idx hlen hf
    exact ⟨h', e'⟩
  · exact pickSmallest_cases h idx

/-- Instance of `buildHuffmanTree_terminates` on the table counted from
"aaaaabc". -/
theorem buildHuffmanTree_terminates_witness :
    (∀ i, i < 256 → 0 ≤ countFrequencies inputAaaaabc zeroFreq i) ∧
    1 ≤ nonZeroCount (countFrequencies inputAaaaabc zeroFreq) ∧
    (∃ root, buildHuffmanTree (countFrequencies inputAaaaabc zeroFreq) = .ok root) ∧
    (fillLeaves (countFrequencies inputAaaaabc zeroFreq)).size
      = nonZeroCount (countFrequencies inputAaaaabc zeroFreq) ∧
    (∀ k, k ≤ nonZeroCount (countFrequencies inputAaaaabc zeroFreq) - 1 →
      ∃ hk, iterSteps k (fillLeaves (countFrequencies inputAaaaabc zeroFreq)) = .ok hk ∧
        hk.size = nonZeroCount (countFrequencies inputAaaaabc zeroFreq) - k) ∧
    mergeLoop 256 (fillLeaves (countFrequencies inputAaaaabc zeroFreq))
      = iterSteps (nonZeroCount (countFrequencies inputAaaaabc zeroFreq) - 1)
          (fillLeaves (countFrequencies inputAaaaabc zeroFreq)) ∧
    (∀ (h : MinHeap) (idx fuel : Nat), h.size ≤ h.array.length → h.size - idx < fuel →
      (∃ h', minHeapifyAux fuel h idx = .ok h') ∧
      (pickSmallest h idx = idx ∨
        (idx < pickSmallest h idx ∧ pickSmallest h idx < h.size))) :=
  ⟨by decide!, by decide!,
    buildHuffmanTree_terminates (countFrequencies inputAaaaabc zeroFreq) (by decide!)
      (by decide!)⟩


end Pro3
